import Mathlib

/-!
# Verification of the `metametric` matching-metric library

Shallow embedding of the core of the `metametric` Python package
(`src/metametric/core/…`) and proofs about the claims of its specification.
Python floats are modelled as exact rationals (`ℚ`); fallible Python code
(code that can raise) is modelled with `Option`.
-/

namespace Metametric

/-! ## Paths (`core/path.py`) -/

/-- A component of a `Path`: either a field name (string) or an index (integer,
with `-1` standing for the wildcard `[*]`). -/
inductive PathComponent where
  | name (s : String)
  | idx (i : Int)
deriving DecidableEq, Repr

/-- Embeds `_component_covers` from `core/path.py`: an index selector covers an
index component when equal or when the selector is the wildcard `-1`; a name
selector covers a name component when equal or when the selector is `"*"`;
mixed kinds never cover. -/
def componentCovers : PathComponent → PathComponent → Bool
  | .idx a, .idx b => a == b || a == -1
  | .name a, .name b => a == b || a == "*"
  | _, _ => false

/-- Embeds the `Path` dataclass of `core/path.py`: a tuple of components. -/
structure Path where
  components : List PathComponent := []
deriving DecidableEq, Repr

/-- Embeds `Path.is_root`. -/
def Path.isRoot (p : Path) : Bool := p.components.isEmpty

/-- Embeds `Path.prepend`. -/
def Path.prependC (p : Path) (c : PathComponent) : Path := ⟨c :: p.components⟩

/-- Embeds `Path.append`. -/
def Path.appendC (p : Path) (c : PathComponent) : Path := ⟨p.components ++ [c]⟩

/-- Embeds `Path.selects`: same length and componentwise coverage. -/
def Path.selects (p q : Path) : Bool :=
  p.components.length == q.components.length &&
    (p.components.zip q.components).all (fun pr => componentCovers pr.1 pr.2)

/-! ### Rendering (`Path.__str__`) -/

/-- Decimal digit character, `chr(48 + d)`. -/
def digitCh (d : ℕ) : Char := Char.ofNat (48 + d)

/-- Decimal rendering of a natural number, as produced by Python `str`. -/
def natChars (n : ℕ) : List Char :=
  if n = 0 then ['0'] else ((Nat.digits 10 n).map digitCh).reverse

/-- Decimal rendering of an integer, as produced by Python `str`. -/
def intChars : Int → List Char
  | .ofNat n => natChars n
  | .negSucc m => '-' :: natChars (m + 1)

/-- Embeds `_index_to_int_str`: `-1` renders as `*`, other indices decimally. -/
def idxStr (i : Int) : List Char := if i = -1 then ['*'] else intChars i

/-- Renders one component: indices in brackets; names bare when first,
dot-prefixed otherwise (the list comprehension in `Path.__str__`). -/
def renderComp : Bool → PathComponent → List Char
  | _, .idx i => '[' :: (idxStr i ++ [']'])
  | isFirst, .name s => if isFirst then s.data else '.' :: s.data

/-- Renders a component list, tracking whether the current component is first. -/
def renderComps : Bool → List PathComponent → List Char
  | _, [] => []
  | isFirst, c :: cs => renderComp isFirst c ++ renderComps false cs

/-- Embeds `Path.__str__`: `@` for the root, concatenated components otherwise. -/
def Path.render (p : Path) : String :=
  if p.components = [] then "@" else String.mk (renderComps true p.components)

/-! ### Parsing (`Path.parse`) -/

/-- The tokenizer delimiters of `Path.parse`: `@ . [ ]`. -/
def isDelim (c : Char) : Bool := c = '@' || c = '.' || c = '[' || c = ']'

/-- The tokenizer loop of `Path.parse`: `t` is the pending token accumulator. -/
def tokenizeAux : List Char → List Char → List (List Char)
  | [], t => if t.isEmpty then [] else [t]
  | c :: cs, t =>
    if isDelim c then (if t.isEmpty then [] else [t]) ++ [c] :: tokenizeAux cs []
    else tokenizeAux cs (t ++ [c])

/-- Tokenizes a string into tokens, splitting on `@ . [ ]` (kept as tokens). -/
def tokenize (s : List Char) : List (List Char) := tokenizeAux s []

/-- ASCII decimal digit test. -/
def isDigitCh (c : Char) : Bool := 48 ≤ c.toNat && c.toNat ≤ 57

/-- Parses a nonempty all-digit token as a natural number (the digit-string
case of Python `int`); any other token fails (Python raises `ValueError`). -/
def parseNat (t : List Char) : Option ℕ :=
  if ¬t.isEmpty ∧ t.all isDigitCh then
    some (Nat.ofDigits 10 ((t.map (fun c => c.toNat - 48)).reverse))
  else none

/-- Parses an optionally `-`-signed digit string as an integer (the integer
literal forms of Python `int`; forms such as embedded underscores or
whitespace, which no rendered path contains, are not modelled). -/
def parseInt : List Char → Option Int
  | '-' :: rest => (parseNat rest).map (fun n => -(n : Int))
  | t => (parseNat t).map (fun n => (n : Int))

/-- Embeds `_int_str_to_index`: `*` parses to `-1`, otherwise `int(s)`. -/
def intStrToIndex (t : List Char) : Option Int :=
  if t = ['*'] then some (-1) else parseInt t

/-- The component-assembly loop of `Path.parse`: `@` and `.` tokens are
skipped; a `[` token takes the next token as an index and advances by three
tokens (the token after the index is skipped unchecked); any other token is a
name component.  Out-of-range access (`tokens[i + 1]`) fails. -/
def assemble : List (List Char) → Option (List PathComponent)
  | [] => some []
  | t :: rest =>
    if t = ['@'] then assemble rest
    else if t = ['.'] then assemble rest
    else if t = ['['] then
      match rest with
      | [] => none
      | [n] => (intStrToIndex n).map (fun k => [PathComponent.idx k])
      | n :: _ :: rest3 => do
        let k ← intStrToIndex n
        let c ← assemble rest3
        some (PathComponent.idx k :: c)
    else do
      let c ← assemble rest
      some (PathComponent.name (String.mk t) :: c)

/-- Embeds `Path.parse`. -/
def Path.parse (s : String) : Option Path :=
  (assemble (tokenize s.data)).map (fun cs => ⟨cs⟩)

/-- A name string that renders and re-parses as itself: nonempty and free of
the delimiter characters `@ . [ ]`. -/
def goodName (s : String) : Bool :=
  !s.data.isEmpty && s.data.all (fun c => !isDelim c)

/-- A component whose rendering re-parses as itself: any index, or a good name. -/
def goodComp : PathComponent → Bool
  | .name s => goodName s
  | .idx _ => true

/-- Paths whose name components are all nonempty and delimiter-free. -/
def goodPath (p : Path) : Bool := p.components.all goodComp

/-- Predicted token list of a rendered path. -/
def tokensOf : Bool → List PathComponent → List (List Char)
  | _, [] => []
  | true, (.name s) :: cs => s.data :: tokensOf false cs
  | false, (.name s) :: cs => ['.'] :: s.data :: tokensOf false cs
  | _, (.idx i) :: cs => ['['] :: idxStr i :: [']'] :: tokensOf false cs

/-! ## Matching constraints (`core/constraint.py`) -/

/-- Embeds the `MatchingConstraint` enum. -/
inductive MatchingConstraint where
  | oneToOne
  | oneToMany
  | manyToOne
  | manyToMany
deriving DecidableEq, Repr

/-! ## Assignment problems (`core/_problem.py`)

The gram matrix is a list of rows, as produced by `Metric.gram_matrix`. -/

/-- Embeds `Metric.gram_matrix`: the table `[[score(x, y) for y in ys] for x in xs]`. -/
def gramMatrix (score : α → β → ℚ) (xs : List α) (ys : List β) : List (List ℚ) :=
  xs.map (fun x => ys.map (fun y => score x y))

/-- Maximum of a nonempty list (`np.max` over an axis slice); `0` on the empty
list, which no caller reaches (`AssignmentProblem` is only built for non-empty
`x` and `y`). -/
def listMax : List ℚ → ℚ
  | [] => 0
  | a :: l => l.foldl max a

/-- First index attaining the maximum of a list (`np.argmax` returns the first
maximal index); `0` on the empty list, which no caller reaches. -/
def listArgmax (l : List ℚ) : ℕ :=
  (l.foldl (fun acc v =>
      let (best, bestIdx, i) := acc
      if v > best then (v, i, i + 1) else (best, bestIdx, i + 1))
    (l.headD 0, 0, 0)).2.1

/-- Column `j` of a row-major matrix. -/
def matCol (m : List (List ℚ)) (j : ℕ) : List ℚ := m.map (fun row => row.getD j 0)

/-- Entry `m[i][j]` of a row-major matrix. -/
def matEntry (m : List (List ℚ)) (i j : ℕ) : ℚ := (m.getD i []).getD j 0

/-- Modelled from the spec: the external 1:1 solver
(`scipy.optimize.linear_sum_assignment`, not part of this repository) returns
a maximum-total one-to-one assignment; its total is the brute-force maximum
over all one-to-one (partial) assignments of the sum of selected entries.
`avail` is the list of still-unmatched column indices. -/
def bruteMaxAux : List (List ℚ) → List ℕ → ℚ
  | [], _ => 0
  | r :: rs, avail =>
    (avail.map (fun j => r.getD j 0 + bruteMaxAux rs (avail.erase j))).foldl max
      (bruteMaxAux rs avail)

/-- Modelled from the spec: brute-force maximum one-to-one assignment total of
a matrix with `ny` columns (the contract of the external one-shot solver). -/
def bruteForceMax (m : List (List ℚ)) (ny : ℕ) : ℚ :=
  bruteMaxAux m (List.range ny)

/-- Embeds `AssignmentProblem.solve` (`core/_problem.py`): totals and matched
triples per constraint.  The `ONE_TO_ONE` branch calls the external solver,
modelled by `bruteForceMax` (triples of that branch are not modelled; no claim
consumes them). -/
def assignmentSolve (c : MatchingConstraint) (m : List (List ℚ)) :
    ℚ × List (ℕ × ℕ × ℚ) :=
  let nx := m.length
  let ny := (m.headD []).length
  match c with
  | .oneToOne => (bruteForceMax m ny, [])
  | .oneToMany =>
    let total := ((List.range ny).map (fun j => listMax (matCol m j))).sum
    let triples := (List.range ny).map (fun j =>
      let i := listArgmax (matCol m j)
      (i, j, matEntry m i j))
    (total, triples)
  | .manyToOne =>
    let total := (m.map listMax).sum
    let triples := (List.range nx).map (fun i =>
      let j := listArgmax (m.getD i [])
      (i, j, matEntry m i j))
    (total, triples)
  | .manyToMany =>
    let total := (m.map List.sum).sum
    let triples := (List.range nx).flatMap (fun i =>
      (List.range ny).map (fun j => (i, j, matEntry m i j)))
    (total, triples)

/-! ## Set matching (`core/matching_metrics.py`) -/

/-- Indices at which `u` occurs in a list, starting from position `k`
(the `x_indices[u]` lists built by the Discrete/1:1 branch of
`SetMatchingMetric.compute`, in enumeration order). -/
def idxsOfFrom (u : α) [DecidableEq α] : List α → ℕ → List ℕ
  | [], _ => []
  | a :: l, k => if a = u then k :: idxsOfFrom u l (k + 1) else idxsOfFrom u l (k + 1)

/-- Indices at which `u` occurs in a list. -/
def idxsOf (u : α) [DecidableEq α] (l : List α) : List ℕ := idxsOfFrom u l 0

/-- The pair matches emitted by the Discrete/1:1 branch of
`SetMatchingMetric.compute`: for each value of `set(x) & set(y)` (iterated
here in first-occurrence order of `x`; Python set order affects only the
order, not the multiset, of emitted matches), `zip` the occurrence indices on
the two sides.  Each emitted `Match` carries the single-index paths
`Path().prepend(i)` and `Path().prepend(j)` and score `1.0`. -/
def discretePairMatches [DecidableEq α] (x y : List α) : List (Path × Path × ℚ) :=
  (x.dedup.filter (fun u => u ∈ y)).flatMap (fun u =>
    ((idxsOf u x).zip (idxsOf u y)).map (fun ij =>
      (Path.mk [.idx ij.1], Path.mk [.idx ij.2], (1 : ℚ))))

/-- Converts solver triples into `Match` records as `_matching_from_triples`
does: each triple `(i, j, s)` becomes a match at paths `[i]` and `[j]`. -/
def matchesFromTriples (ts : List (ℕ × ℕ × ℚ)) : List (Path × Path × ℚ) :=
  ts.map (fun t => (Path.mk [.idx t.1], Path.mk [.idx t.2.1], t.2.2))

/-- The discrete inner metric's gram matrix: `DiscreteMetric.compute` scores
`1.0` on equal objects and `0.0` otherwise. -/
def discreteGram [DecidableEq α] (x y : List α) : List (List ℚ) :=
  gramMatrix (fun a b => if a = b then 1 else 0) x y

/-- Embeds `SetMatchingMetric.compute` for a `DiscreteMetric` inner metric
(score and emitted matching, root match first): empty-side special cases, the
`set(x) & set(y)` shortcut when the constraint is 1:1, otherwise the
assignment problem over the discrete gram matrix. -/
def setMatchingDiscreteCompute [DecidableEq α] (c : MatchingConstraint)
    (x y : List α) : ℚ × List (Path × Path × ℚ) :=
  if x = [] ∧ y = [] then (1, [(Path.mk [], Path.mk [], 1)])
  else if x = [] ∨ y = [] then (0, [])
  else if c = .oneToOne then
    let score : ℚ := ((x.toFinset ∩ y.toFinset).card : ℚ)
    (score, (Path.mk [], Path.mk [], score) :: discretePairMatches x y)
  else
    let solved := assignmentSolve c (discreteGram x y)
    (solved.1, (Path.mk [], Path.mk [], solved.1) :: matchesFromTriples solved.2)

/-- Embeds `SetMatchingMetric.score_self` for a `DiscreteMetric` inner metric:
`1` on the empty collection, the gram-matrix sum under `*:*`, the sum of
element self-scores (each `1.0` for `DiscreteMetric`) under `1:1`, and
`score(x, x)` otherwise. -/
def setMatchingDiscreteScoreSelf [DecidableEq α] (c : MatchingConstraint)
    (x : List α) : ℚ :=
  if x = [] then 1
  else if c = .manyToMany then ((discreteGram x x).map List.sum).sum
  else if c = .oneToOne then (x.map (fun _ => (1 : ℚ))).sum
  else (setMatchingDiscreteCompute c x x).1

/-- The spec-side quantity of the claim: the `Counter` (multiset) intersection
count of two collections — the sum over distinct values of the minimum of
their multiplicities on the two sides. -/
def counterIntersectionCount [DecidableEq α] (x y : List α) : ℕ :=
  ∑ u ∈ x.toFinset ∩ y.toFinset, min (x.count u) (y.count u)

/-- Embeds `SetMatchingMetric.compute`'s score for a general (non-`Discrete`)
inner metric given by a score function, e.g. one built by
`Metric.from_function`: empty-side special cases, otherwise the assignment
problem over the inner gram matrix. -/
def setMatchingComputeScore (innerScore : α → α → ℚ) (c : MatchingConstraint)
    (x y : List α) : ℚ :=
  if x.isEmpty ∧ y.isEmpty then 1
  else if x.isEmpty ∨ y.isEmpty then 0
  else (assignmentSolve c (gramMatrix innerScore x y)).1

/-- Embeds `SetMatchingMetric.score_self` for a general inner metric whose
self-score function is `innerSelf` (for `Metric.from_function` metrics the
default `score_self(u) = score(u, u)` applies). -/
def setMatchingScoreSelfGen (innerScore : α → α → ℚ) (innerSelf : α → ℚ)
    (c : MatchingConstraint) (x : List α) : ℚ :=
  if x.isEmpty then 1
  else if c = .manyToMany then ((gramMatrix innerScore x x).map List.sum).sum
  else if c = .oneToOne then (x.map innerSelf).sum
  else setMatchingComputeScore innerScore c x x

/-! ## Normalizers (`core/normalizers.py`)

Dividing a *Python number* by a Python-number zero raises
`ZeroDivisionError`, modelled with `Option`.  The `ℚ`-valued normalizers
below embed the normalizers on Python-number operands; the scores of the
source may however also be *numpy scalars* (a `np.ndarray.sum()`/`max()`
without `.item()`), for which division does not raise — the tagged `PyVal`
variants further below track that distinction. -/

/-- Embeds `Precision.normalize` on Python numbers: `score_xy / score_xx`,
unguarded. -/
def precisionNormalize (sxy sxx _syy : ℚ) : Option ℚ :=
  if sxx = 0 then none else some (sxy / sxx)

/-- Embeds `Recall.normalize` on Python numbers: `score_xy / score_yy`,
unguarded. -/
def recallNormalize (sxy _sxx syy : ℚ) : Option ℚ :=
  if syy = 0 then none else some (sxy / syy)

/-- Embeds `Jaccard.normalize` on Python numbers:
`score_xy / (score_xx + score_yy - score_xy)`, unguarded. -/
def jaccardNormalize (sxy sxx syy : ℚ) : Option ℚ :=
  if sxx + syy - sxy = 0 then none else some (sxy / (sxx + syy - sxy))

/-- Embeds `FScore.normalize` on Python numbers:
`(1 + β²)·score_xy / (β²·score_yy + score_xx)` when `score_xy > 0`, else `0`. -/
def fscoreNormalize (beta sxy sxx syy : ℚ) : Option ℚ :=
  if sxy > 0 then
    if beta ^ 2 * syy + sxx = 0 then none
    else some ((1 + beta ^ 2) * sxy / (beta ^ 2 * syy + sxx))
  else some 0

/-- Embeds `NormalizedMetric.compute`'s root score: run the inner metric on
`(x, y)`, `(x, x)` and `(y, y)`, then normalize the triple. -/
def normalizedComputeScore (innerCompute : α → α → ℚ) (innerSelf : α → ℚ)
    (normalize : ℚ → ℚ → ℚ → Option ℚ) (x y : α) : Option ℚ :=
  normalize (innerCompute x y) (innerSelf x) (innerSelf y)

/-! ## Python numbers versus numpy scalars

The scores flowing between `matching_metrics.py`, `_problem.py` and
`normalizers.py` are either Python numbers (literals, `len(...)`, Python
`sum(...)`, and every numpy value passed through `.item()`) or numpy scalars
(`np.ndarray.sum()`/`max()` results without `.item()`).  The distinction
matters exactly at the unguarded divisions of `normalizers.py`: dividing a
Python number by a Python-number zero raises `ZeroDivisionError`, while a
division with a numpy-scalar operand dispatches to the numpy ufunc, which
under the default `np.seterr` returns `nan`/`±inf` together with a
`RuntimeWarning` — it does not raise.  A score is therefore embedded as a
tagged rational with a single marker for the non-finite floats produced by a
numpy zero-division; as an operand the marker propagates like `nan` (no
modelled pipeline ever feeds a non-finite value back into arithmetic). -/

/-- A Python-level score value: a Python number, a numpy scalar, or a
non-finite float (`nan`/`±inf`) produced by a numpy zero-division. -/
inductive PyVal where
  | py (q : ℚ)
  | np (q : ℚ)
  | npNonfinite
deriving DecidableEq, Repr

/-- The numeric value of a finite score. -/
def PyVal.val : PyVal → Option ℚ
  | .py q => some q
  | .np q => some q
  | .npNonfinite => none

/-- Python binary `+`: a numpy operand makes the result a numpy scalar. -/
def pyAdd : PyVal → PyVal → PyVal
  | .py a, .py b => .py (a + b)
  | a, b =>
    match a.val, b.val with
    | some qa, some qb => .np (qa + qb)
    | _, _ => .npNonfinite

/-- Python binary `-`: a numpy operand makes the result a numpy scalar. -/
def pySub : PyVal → PyVal → PyVal
  | .py a, .py b => .py (a - b)
  | a, b =>
    match a.val, b.val with
    | some qa, some qb => .np (qa - qb)
    | _, _ => .npNonfinite

/-- Python binary `/`: it raises `ZeroDivisionError` (`none`) only when both
operands are Python numbers and the denominator is zero; with a numpy operand
the numpy ufunc runs instead, returning a numpy scalar, or `nan`/`±inf` with
a `RuntimeWarning` (not an exception) on a zero denominator. -/
def pyDiv : PyVal → PyVal → Option PyVal
  | .py a, .py b => if b = 0 then none else some (.py (a / b))
  | a, b =>
    match a.val, b.val with
    | some qa, some qb =>
      if qb = 0 then some .npNonfinite else some (.np (qa / qb))
    | _, _ => some .npNonfinite

/-- `Precision.normalize` over tagged scores: `score_xy / score_xx`. -/
def precisionNormalizeV (sxy sxx _syy : PyVal) : Option PyVal :=
  pyDiv sxy sxx

/-- `Recall.normalize` over tagged scores: `score_xy / score_yy`. -/
def recallNormalizeV (sxy _sxx syy : PyVal) : Option PyVal :=
  pyDiv sxy syy

/-- `Jaccard.normalize` over tagged scores:
`score_xy / (score_xx + score_yy - score_xy)`. -/
def jaccardNormalizeV (sxy sxx syy : PyVal) : Option PyVal :=
  pyDiv sxy (pySub (pyAdd sxx syy) sxy)

/-- `SetMatchingMetric.compute`'s score with its Python/numpy type (for a
non-`Discrete` inner metric): the empty-side cases are Python literals; the
`ONE_TO_ONE` total is `m[row_idx, col_idx].sum()`, a numpy scalar (no
`.item()` in `_problem.py`); the other three constraints pass their totals
through `.item()` and return Python floats. -/
def setMatchingComputeScoreV (innerScore : α → α → ℚ) (c : MatchingConstraint)
    (x y : List α) : PyVal :=
  if x.isEmpty ∧ y.isEmpty then .py 1
  else if x.isEmpty ∨ y.isEmpty then .py 0
  else
    match c with
    | .oneToOne => .np (assignmentSolve .oneToOne (gramMatrix innerScore x y)).1
    | .oneToMany => .py (assignmentSolve .oneToMany (gramMatrix innerScore x y)).1
    | .manyToOne => .py (assignmentSolve .manyToOne (gramMatrix innerScore x y)).1
    | .manyToMany => .py (assignmentSolve .manyToMany (gramMatrix innerScore x y)).1

/-- `SetMatchingMetric.score_self` with its Python/numpy type: `1.0` on an
empty input; the `*:*` branch returns `gram_matrix(x, x).sum()`, a numpy
scalar; the `1:1` branch a Python `sum` of the inner self-scores; the
remaining constraints delegate to `score(x, x)`. -/
def setMatchingScoreSelfV (innerScore : α → α → ℚ) (innerSelf : α → ℚ)
    (c : MatchingConstraint) (x : List α) : PyVal :=
  if x.isEmpty then .py 1
  else if c = .manyToMany then .np ((gramMatrix innerScore x x).map List.sum).sum
  else if c = .oneToOne then .py (x.map innerSelf).sum
  else setMatchingComputeScoreV innerScore c x x

/-- `NormalizedMetric.compute`'s root score over tagged scores. -/
def normalizedComputeScoreV (innerCompute : α → α → PyVal) (innerSelf : α → PyVal)
    (normalize : PyVal → PyVal → PyVal → Option PyVal) (x y : α) : Option PyVal :=
  normalize (innerCompute x y) (innerSelf x) (innerSelf y)

/-! ## Aggregator state (`core/state.py`) -/

/-- The operations of a `Metric` as consumed by `SingleMetricState`; fallible
(a metric evaluation may raise, e.g. `ZeroDivisionError` in a normalizer). -/
structure MetricOps (α : Type) where
  scoreSelf : α → Option ℚ
  compute : α → α → Option ℚ

/-- Embeds `SingleMetricState`: the three parallel sequences. -/
structure SingleMetricState where
  preds : List ℚ
  refs : List ℚ
  matchScores : List ℚ  -- the `matches` sequence (a Lean keyword)
deriving DecidableEq, Repr

/-- Embeds `SingleMetricState.update_single`: compute `score_self(pred)`,
`score_self(ref)` and `compute(pred, ref)`, then append all three.  All
appends happen after every fallible step (hooks run before the appends), so a
raised error yields no state change (`none`). -/
def updateSingle (m : MetricOps α) (st : SingleMetricState) (p r : α) :
    Option SingleMetricState := do
  let sxx ← m.scoreSelf p
  let syy ← m.scoreSelf r
  let sxy ← m.compute p r
  some ⟨st.preds ++ [sxx], st.refs ++ [syy], st.matchScores ++ [sxy]⟩

/-- `update_single` with Python exception semantics: on failure the object
keeps its previous state and the error propagates (`false`). -/
def runSingle (m : MetricOps α) (st : SingleMetricState) (p r : α) :
    SingleMetricState × Bool :=
  match updateSingle m st p r with
  | some st2 => (st2, true)
  | none => (st, false)

/-- Embeds `MetricState.update_batch`: `update_single` over `zip(preds, refs)`
(`zip` stops at the shorter input).  An error mid-batch leaves the pairs
already processed in place and propagates (`false`). -/
def updateBatchGo (m : MetricOps α) (st : SingleMetricState) :
    List (α × α) → SingleMetricState × Bool
  | [] => (st, true)
  | pr :: rest =>
    match updateSingle m st pr.1 pr.2 with
    | some st2 => updateBatchGo m st2 rest
    | none => (st, false)

/-- Embeds `MetricState.update_batch` on two sequences. -/
def updateBatch (m : MetricOps α) (st : SingleMetricState) (ps rs : List α) :
    SingleMetricState × Bool :=
  updateBatchGo m st (ps.zip rs)

/-- Embeds `SingleMetricState.reset`. -/
def resetState : SingleMetricState := ⟨[], [], []⟩

/-- Whether a pair can be processed without error (all three metric
evaluations succeed); independent of the current state. -/
def okPair (m : MetricOps α) (pr : α × α) : Bool :=
  (m.scoreSelf pr.1).isSome && (m.scoreSelf pr.2).isSome && (m.compute pr.1 pr.2).isSome

/-- An operation on a `SingleMetricState`. -/
inductive StateOp (α : Type) where
  | single (p r : α)
  | batch (ps rs : List α)
  | reset

/-- Applies one operation with exception semantics (the state reached when the
call returns or raises). -/
def applyOp (m : MetricOps α) (st : SingleMetricState) : StateOp α → SingleMetricState
  | .single p r => (runSingle m st p r).1
  | .batch ps rs => (updateBatch m st ps rs).1
  | .reset => resetState

/-- Applies a sequence of operations. -/
def applyOps (m : MetricOps α) (st : SingleMetricState) (ops : List (StateOp α)) :
    SingleMetricState :=
  ops.foldl (applyOp m) st

/-- The `SingleMetricState` invariant: the three sequences have equal length. -/
def wfState (st : SingleMetricState) : Prop :=
  st.preds.length = st.refs.length ∧ st.refs.length = st.matchScores.length

/-- The `DiscreteMetric` over `ℚ` as `MetricOps` (never fails). -/
def discreteOps : MetricOps ℚ :=
  { scoreSelf := fun _ => some 1
    compute := fun a b => some (if a = b then 1 else 0) }

/-- A user-provided `Metric.from_function` metric on `ℚ`: `f(a, b) = a·b`. -/
def mulScore (a b : ℚ) : ℚ := a * b

/-- The precision-normalized `1:*` set matching over the `mulScore` inner
metric, as `MetricOps`: `NormalizedMetric.score_self` is the constant `1.0`;
`compute` normalizes the inner triple with `Precision`.  On this pipeline
every score is a Python float — the `1:*` assignment total passes through
`.item()` in `_problem.py`, and `score_self` under `1:*` delegates to
`score(x, x)` — so the `ℚ`-valued combinators are exact here
(`oneToMany_pipeline_py` proves the tagged pipeline carries only Python
numbers), and the division really raises `ZeroDivisionError` when the
prediction self-score is `0`. -/
def normPrecisionSetMulOM : MetricOps (List ℚ) :=
  { scoreSelf := fun _ => some 1
    compute := fun x y =>
      normalizedComputeScore
        (setMatchingComputeScore mulScore .oneToMany)
        (setMatchingScoreSelfGen mulScore (fun u => mulScore u u) .oneToMany)
        precisionNormalize x y }

/-! ## ILP matching problems (`core/_ilp.py`)

A feasible point of the 0/1 ILP built by `LatentSetMatchingMetric.compute` is
a vector `z` over `n_x·n_y + n_x_vars·n_y_vars` coordinates, laid out
`[t-block | s-block]` with `index_pair(i, j) = i·n_y + j` and
`index_var_pair(p, q) = n_x·n_y + p·n_y_vars + q`. -/

/-- A row of `_get_one_to_many_constraint_matrix nx ny` (row `r < ny`):
coefficient `1` exactly on the `t`-columns whose column part is `r`. -/
def oneToManyRow (ny r c : ℕ) : ℚ := if c % ny = r then 1 else 0

/-- A row of `_get_many_to_one_constraint_matrix nx ny` (row `r < nx`):
coefficient `1` exactly on the `t`-columns whose row part is `r`. -/
def manyToOneRow (ny r c : ℕ) : ℚ := if c / ny = r then 1 else 0

/-- A row of `_get_one_to_one_constraint_matrix nx ny` (rows `r < ny + nx`:
first the per-column block, then the per-row block). -/
def oneToOneRow (ny r c : ℕ) : ℚ :=
  if r < ny then oneToManyRow ny r c else manyToOneRow ny (r - ny) c

/-- Row count of the matching-constraint block for each constraint kind. -/
def matchingRowCount (nx ny : ℕ) : MatchingConstraint → ℕ
  | .oneToOne => ny + nx
  | .oneToMany => ny
  | .manyToOne => nx
  | .manyToMany => 0

/-- A row of the matching-constraint block built by
`MatchingConstraintBuilder.build`, padded with zeros over the `s`-block. -/
def matchingRow (nx ny : ℕ) (k : MatchingConstraint) (r c : ℕ) : ℚ :=
  if c < nx * ny then
    match k with
    | .oneToOne => oneToOneRow ny r c
    | .oneToMany => oneToManyRow ny r c
    | .manyToOne => manyToOneRow ny r c
    | .manyToMany => 0
  else 0

/-- A row of the variable-matching block built by
`VariableMatchingConstraintBuilder.build`: the 1:1 constraint matrix over the
variable pairs, padded with zeros over the `t`-block (rows `r < nyv + nxv`). -/
def varMatchingRow (nx ny nyv r c : ℕ) : ℚ :=
  if c < nx * ny then 0 else oneToOneRow nyv r (c - nx * ny)

/-- The dot product of a constraint row with the decision vector over the
first `n` coordinates. -/
def rowDot (n : ℕ) (row z : ℕ → ℚ) : ℚ :=
  ∑ c ∈ Finset.range n, row c * z c

/-- Feasibility of the matching-constraint block (`ub = 1` on every row;
`MANY_TO_MANY` contributes no rows). -/
def matchingBlockFeasible (nx ny nxv nyv : ℕ) (k : MatchingConstraint)
    (z : ℕ → ℚ) : Prop :=
  ∀ r < matchingRowCount nx ny k,
    rowDot (nx * ny + nxv * nyv) (matchingRow nx ny k r) z ≤ 1

/-- Feasibility of the variable-matching block (`ub = 1` on every row); the
builder returns no constraint when either variable set is empty. -/
def varBlockFeasible (nx ny nxv nyv : ℕ) (z : ℕ → ℚ) : Prop :=
  if nxv = 0 ∨ nyv = 0 then True
  else ∀ r < nyv + nxv,
    rowDot (nx * ny + nxv * nyv) (varMatchingRow nx ny nyv r) z ≤ 1

/-- Feasibility of the latent-variable block built by
`LatentVariableConstraintBuilder.build` (`ub = 0` on every row): the rows are
indexed by the data-dependent candidate list `L` of item pairs `(i, j)` with
positive gram entry and their referenced variable pairs `(p, q)`. -/
def latentBlockFeasible (nx ny nyv : ℕ) (L : List ((ℕ × ℕ) × (ℕ × ℕ)))
    (z : ℕ → ℚ) : Prop :=
  ∀ e ∈ L, z (e.1.1 * ny + e.1.2) - z (nx * ny + e.2.1 * nyv + e.2.2) ≤ 0

/-- A feasible point of the full 0/1 ILP that `LatentSetMatchingMetric.compute`
builds: box bounds with integrality (`z c ∈ {0, 1}`), the item-matching block
for the metric's constraint kind, the variable-matching block, and the
latent-variable block. -/
def ilpFeasible (nx ny nxv nyv : ℕ) (k : MatchingConstraint)
    (L : List ((ℕ × ℕ) × (ℕ × ℕ))) (z : ℕ → ℚ) : Prop :=
  (∀ c < nx * ny + nxv * nyv, z c = 0 ∨ z c = 1) ∧
    matchingBlockFeasible nx ny nxv nyv k z ∧
    varBlockFeasible nx ny nxv nyv z ∧
    latentBlockFeasible nx ny nyv L z

/-- The variable-binding decision `s[p, q]` of a decision vector. -/
def sVar (nx ny nyv : ℕ) (z : ℕ → ℚ) (p q : ℕ) : ℚ :=
  z (nx * ny + p * nyv + q)

/-! ## Metric derivation (`core/decorator.py`) -/

/-- The reflective type description consumed by `derive_metric`: records
(dataclasses), tagged unions, collections with one element type, the
`Variable` nominal, atomic types with equality, and atomic types without
equality (underivable). -/
inductive TypeDesc where
  | var
  | record (fields : List (String × TypeDesc))
  | unionT (cases : List TypeDesc)
  | coll (elem : TypeDesc)
  | atomicEq
  | opaqueT

/-- The shape of the metric tree returned by `derive_metric`. -/
inductive DerivedMetric where
  | varLatent
  | product (fields : List (String × DerivedMetric))
  | unionM (cases : List DerivedMetric)
  | latentSet (inner : DerivedMetric)
  | setM (inner : DerivedMetric)
  | discrete

/-- Whether a type description is the `Variable` nominal. -/
def TypeDesc.isVar : TypeDesc → Bool
  | .var => true
  | _ => false

/-- Embeds `may_be_variable`: the type is `Variable` itself, or a union with
`Variable` among its cases. -/
def mayBeVariable : TypeDesc → Bool
  | .var => true
  | .unionT cs => cs.any TypeDesc.isVar
  | .record _ => false
  | .coll _ => false
  | .atomicEq => false
  | .opaqueT => false

/-- Embeds `dataclass_has_variable`: the type is `Variable` itself, or a
dataclass one of whose direct fields `may_be_variable` (note: not recursive
into nested dataclasses). -/
def dataclassHasVariable : TypeDesc → Bool
  | .var => true
  | .record fs => fs.any (fun f => mayBeVariable f.2)
  | .unionT _ => false
  | .coll _ => false
  | .atomicEq => false
  | .opaqueT => false

mutual

/-- The spec's wording of the variable-presence check, for comparison: a type
contains a `Variable` if it is `Variable`, a union containing `Variable`, or a
record with any field satisfying the predicate (transitively via records). -/
def containsVariableTransitive : TypeDesc → Bool
  | .var => true
  | .unionT cs => cs.any TypeDesc.isVar
  | .record fs => cvtFields fs
  | .coll _ => false
  | .atomicEq => false
  | .opaqueT => false

/-- `containsVariableTransitive` over the fields of a record. -/
def cvtFields : List (String × TypeDesc) → Bool
  | [] => false
  | (_, t) :: fs => containsVariableTransitive t || cvtFields fs

end

mutual

/-- Embeds `derive_metric`: `Variable` resolves to its attached latent metric;
dataclasses to a `ProductMetric` over field-wise derivations; unions to a
`UnionMetric`; collections to a `LatentSetMatchingMetric` when
`dataclass_has_variable` holds of the element type and a `SetMatchingMetric`
otherwise; equality-supporting atoms to a `DiscreteMetric`; anything else
fails (`ValueError`). -/
def deriveMetric : TypeDesc → MatchingConstraint → Option DerivedMetric
  | .var, _ => some .varLatent
  | .record fs, k => (deriveFields fs k).map DerivedMetric.product
  | .unionT cs, k => (deriveCases cs k).map DerivedMetric.unionM
  | .coll e, k =>
    (deriveMetric e k).map (fun m =>
      if dataclassHasVariable e then .latentSet m else .setM m)
  | .atomicEq, _ => some .discrete
  | .opaqueT, _ => none

/-- Field-wise derivation for `ProductMetric`. -/
def deriveFields : List (String × TypeDesc) → MatchingConstraint →
    Option (List (String × DerivedMetric))
  | [], _ => some []
  | (s, t) :: fs, k => do
    let m ← deriveMetric t k
    let ms ← deriveFields fs k
    some ((s, m) :: ms)

/-- Case-wise derivation for `UnionMetric`. -/
def deriveCases : List TypeDesc → MatchingConstraint → Option (List DerivedMetric)
  | [], _ => some []
  | t :: cs, k => do
    let m ← deriveMetric t k
    let ms ← deriveCases cs k
    some (m :: ms)

end

/-! ## The iterative Hungarian solver (`core/_assignment.py`)

`iterative_max_matching` implements maximum-weight bipartite matching via the
Hungarian algorithm with dual potentials `u`, `v` and a predecessor array
`pred` (`pred[j] = -1` means column `j` is unmatched, modelled as `none`).
The embedding carries the potentials and the matching as functions.  The
`minv` array starts at `+inf`; since the first inner iteration replaces every
entry (`cur < inf`), the embedding performs that first iteration as an
explicit initialization and keeps `minv : ℕ → ℚ` afterwards.  The unbounded
`while` loops are modelled with fuel; `none` marks a run that exhausts its
fuel or hits a state the source reaches only through out-of-range numpy
reads (neither happens on the runs the theorems are about). -/

/-- The outer state of the solver: dual potentials and the matching. -/
structure HState where
  u : ℕ → ℚ
  v : ℕ → ℚ
  pred : ℕ → Option ℕ

/-- The reduced cost `c'(r, j) = -w[r, j] - u[r] - v[j]` (minimization by
negation, as in the source). -/
def cbar (w : ℕ → ℕ → ℚ) (hs : HState) (r j : ℕ) : ℚ :=
  -(w r j) - hs.u r - hs.v j

/-- The inner-loop state: outer state, `minv`, `way` (`none` = the alternating
tree root, i.e. `-1`), the `used` columns in order of insertion, and the
frontier column `j0`. -/
structure TreeSt where
  hs : HState
  minv : ℕ → ℚ
  way : ℕ → Option ℕ
  used : List ℕ
  j0 : ℕ

/-- First index of `l` attaining the minimum of `f` (`np.argmin` restricted
to the positions listed in `l`, which the callers keep in increasing order). -/
def argminList (f : ℕ → ℚ) : List ℕ → Option ℕ
  | [] => none
  | j :: js =>
    match argminList f js with
    | none => some j
    | some jb => if f j ≤ f jb then some j else some jb

/-- The row scanned at the frontier: `i` at the root, else `pred[j0]`
(matched by the loop invariant; the default covers the unreachable read). -/
def frontierRow (i : ℕ) (hs : HState) (j0 : Option ℕ) : ℕ :=
  match j0 with
  | none => i
  | some j => (hs.pred j).getD i

/-- One pass of step 5 of the inner loop: `v[used] -= delta`,
`u[pred[used]] += delta`, `u[i] += delta`, `minv[~used] -= delta`. -/
def applyDelta (i ny : ℕ) (used : List ℕ) (delta : ℚ) (hs : HState)
    (minv : ℕ → ℚ) : HState × (ℕ → ℚ) :=
  (⟨fun r => if r = i ∨ ∃ j ∈ used, hs.pred j = some r then hs.u r + delta else hs.u r,
    fun j => if j ∈ used then hs.v j - delta else hs.v j,
    hs.pred⟩,
   fun j => if j < ny ∧ j ∉ used then minv j - delta else minv j)

instance (i : ℕ) (used : List ℕ) (hs : HState) (r : ℕ) :
    Decidable (r = i ∨ ∃ j ∈ used, hs.pred j = some r) := by
  infer_instance

/-- The scan step of an inner iteration: improve `minv` and `way` over the
unused columns with the reduced costs of the frontier row `i0`. -/
def scanMinv (w : ℕ → ℕ → ℚ) (ny i0 : ℕ) (st : TreeSt) : (ℕ → ℚ) × (ℕ → Option ℕ) :=
  (fun j => if j < ny ∧ j ∉ st.used ∧ -(w i0 j) - st.hs.u i0 - st.hs.v j < st.minv j
      then -(w i0 j) - st.hs.u i0 - st.hs.v j else st.minv j,
   fun j => if j < ny ∧ j ∉ st.used ∧ -(w i0 j) - st.hs.u i0 - st.hs.v j < st.minv j
      then some st.j0 else st.way j)

/-- The general inner-loop iteration (`while True` body after the first
pass): scan the frontier row, improve `minv`/`way` over unused columns, pick
the first unused column of minimal `minv`, update the potentials, then either
exit on an unmatched column (ready to augment) or grow the tree. -/
def innerLoop (w : ℕ → ℕ → ℚ) (i ny : ℕ) :
    ℕ → TreeSt → Option (HState × (ℕ → Option ℕ) × ℕ)
  | 0, _ => none
  | fuel + 1, st =>
    let i0 := frontierRow i st.hs (some st.j0)
    let minv2 := (scanMinv w ny i0 st).1
    let way2 := (scanMinv w ny i0 st).2
    match argminList minv2 ((List.range ny).filter (fun j => j ∉ st.used)) with
    | none => none
    | some j1 =>
      let delta := minv2 j1
      let hs2 := (applyDelta i ny st.used delta st.hs minv2).1
      let minv3 := (applyDelta i ny st.used delta st.hs minv2).2
      match st.hs.pred j1 with
      | none => some (hs2, way2, j1)
      | some _ => innerLoop w i ny fuel ⟨hs2, minv3, way2, st.used ++ [j1], j1⟩

/-- The first inner iteration for row `i`: with `minv = inf` every unused
(= every) column is improved from the root, so `minv` becomes the reduced
cost of row `i` and every `way` entry the root. -/
def initTree (w : ℕ → ℕ → ℚ) (i ny : ℕ) (hs : HState) :
    Option (HState × (ℕ → Option ℕ) × ℕ) :=
  let cur := fun j => -(w i j) - hs.u i - hs.v j
  let way2 : ℕ → Option ℕ := fun _ => none
  match argminList cur ((List.range ny).filter (fun j => j ∉ ([] : List ℕ))) with
  | none => none
  | some j1 =>
    let delta := cur j1
    let hs2 := (applyDelta i ny [] delta hs cur).1
    let minv3 := (applyDelta i ny [] delta hs cur).2
    match hs.pred j1 with
    | none => some (hs2, way2, j1)
    | some _ => innerLoop w i ny ny ⟨hs2, minv3, way2, [j1], j1⟩

/-- The augmentation loop: walk `way` back to the root, rematching each
column on the path to the row of its predecessor. -/
def augmentLoop (i : ℕ) (way : ℕ → Option ℕ) :
    ℕ → (ℕ → Option ℕ) → ℕ → Option (ℕ → Option ℕ)
  | 0, _, _ => none
  | fuel + 1, pred, jcur =>
    match way jcur with
    | none => some (Function.update pred jcur (some i))
    | some jp =>
      augmentLoop i way fuel
        (Function.update pred jcur (some ((pred jp).getD i))) jp

/-- Process one row `i`: build the alternating tree, then augment. -/
def rowStep (w : ℕ → ℕ → ℚ) (ny i : ℕ) (hs : HState) : Option HState := do
  let (hs2, way, j1) ← initTree w i ny hs
  let pred2 ← augmentLoop i way (ny + 1) hs2.pred j1
  some ⟨hs2.u, hs2.v, pred2⟩

/-- The total of the current matching: the sum of the cost entries of the
matched pairs, as rebuilt at each `yield`. -/
def matchTotal (w : ℕ → ℕ → ℚ) (ny : ℕ) (hs : HState) : ℚ :=
  ∑ j ∈ Finset.range ny, ((hs.pred j).elim 0 (fun r => w r j))

/-- Run the solver over the listed rows, yielding the running totals
(`iterative_max_matching` yields one `(total, matches)` pair per row). -/
def runRows (w : ℕ → ℕ → ℚ) (ny : ℕ) :
    List ℕ → HState → Option (HState × List ℚ)
  | [], hs => some (hs, [])
  | i :: rest, hs => do
    let hs2 ← rowStep w ny i hs
    let (hs3, totals) ← runRows w ny rest hs2
    some (hs3, matchTotal w ny hs2 :: totals)

/-- The initial state: zero potentials, empty matching. -/
def hInit : HState := ⟨fun _ => 0, fun _ => 0, fun _ => none⟩

/-- The totals yielded by `iterative_max_matching` on an `nx × ny` cost
function, after the `nx > ny` transposition. -/
def iterativeTotals (cost : ℕ → ℕ → ℚ) (nx ny : ℕ) : Option (List ℚ) :=
  if nx > ny then
    ((runRows (fun i j => cost j i) nx (List.range ny) hInit).map Prod.snd)
  else
    ((runRows cost ny (List.range nx) hInit).map Prod.snd)

/-- A (partial) one-to-one assignment between row indices `< nx` and column
indices `< ny`: a set of pairs, no two sharing a row or a column. -/
def IsMatching (nx ny : ℕ) (M : Finset (ℕ × ℕ)) : Prop :=
  (∀ p ∈ M, p.1 < nx ∧ p.2 < ny) ∧
  (∀ p ∈ M, ∀ q ∈ M, p.1 = q.1 → p = q) ∧
  (∀ p ∈ M, ∀ q ∈ M, p.2 = q.2 → p = q)

/-- The value of an assignment: the sum of its selected entries. -/
def mval (w : ℕ → ℕ → ℚ) (M : Finset (ℕ × ℕ)) : ℚ :=
  ∑ p ∈ M, w p.1 p.2

/-- `bruteMaxAux` over an indexed cost function: rows `r0, …, r0 + k - 1`,
columns from `avail`. -/
def bmF (w : ℕ → ℕ → ℚ) : ℕ → ℕ → List ℕ → ℚ
  | _, 0, _ => 0
  | r0, k + 1, avail =>
    (avail.map (fun j => w r0 j + bmF w (r0 + 1) k (avail.erase j))).foldl max
      (bmF w (r0 + 1) k avail)

/-! ## Invariants of the Hungarian solver (proof-side propositions) -/

/-- Outer invariant: state of the solver before processing row `i`. -/
structure OInv (w : ℕ → ℕ → ℚ) (ny i : ℕ) (hs : HState) : Prop where
  predLT : ∀ j r, hs.pred j = some r → j < ny ∧ r < i
  predInj : ∀ j j2 r, hs.pred j = some r → hs.pred j2 = some r → j = j2
  predOnto : ∀ r, r < i → ∃ j, j < ny ∧ hs.pred j = some r
  feas : ∀ r, r < i → ∀ j, j < ny → 0 ≤ cbar w hs r j
  tight : ∀ j r, hs.pred j = some r → cbar w hs r j = 0
  vUnm : ∀ j, j < ny → hs.pred j = none → hs.v j = 0
  vNonpos : ∀ j, j < ny → hs.v j ≤ 0

/-- Inner invariant: holds at the entry of every `innerLoop` iteration. -/
structure TInv (w : ℕ → ℕ → ℚ) (ny i : ℕ) (st : TreeSt) : Prop where
  predLT : ∀ j r, st.hs.pred j = some r → j < ny ∧ r < i
  predInj : ∀ j j2 r, st.hs.pred j = some r → st.hs.pred j2 = some r → j = j2
  predOnto : ∀ r, r < i → ∃ j, j < ny ∧ st.hs.pred j = some r
  feas : ∀ r, r < i → ∀ j, j < ny → 0 ≤ cbar w st.hs r j
  tight : ∀ j r, st.hs.pred j = some r → cbar w st.hs r j = 0
  vUnm : ∀ j, j < ny → st.hs.pred j = none → st.hs.v j = 0
  vNonpos : ∀ j, j < ny → st.hs.v j ≤ 0
  feasI : ∀ j, j < ny → 0 ≤ cbar w st.hs i j
  usedNd : st.used.Nodup
  usedOk : ∀ j ∈ st.used, j < ny ∧ (st.hs.pred j).isSome
  j0mem : st.j0 ∈ st.used
  scanLe : ∀ j, j < ny → j ∉ st.used →
    st.minv j ≤ cbar w st.hs i j ∧
      ∀ j2 ∈ st.used, j2 ≠ st.j0 →
        st.minv j ≤ cbar w st.hs ((st.hs.pred j2).getD i) j
  wayEq : ∀ j, j < ny → j ∉ st.used →
    st.minv j = cbar w st.hs (frontierRow i st.hs (st.way j)) j
  wayMem : ∀ j, j < ny → j ∉ st.used →
    st.way j = none ∨ ∃ jp ∈ st.used, st.way j = some jp
  minvPos : ∀ j, j < ny → j ∉ st.used → 0 ≤ st.minv j
  usedTight : ∀ j ∈ st.used, cbar w st.hs (frontierRow i st.hs (st.way j)) j = 0
  usedWayOrder : ∀ k (h : k < st.used.length),
    st.way (st.used.get ⟨k, h⟩) = none ∨
      ∃ k2, ∃ h2 : k2 < st.used.length, k2 < k ∧
        st.way (st.used.get ⟨k, h⟩) = some (st.used.get ⟨k2, h2⟩)

/-- Exit bundle: what holds when the inner loop stops, ready to augment. -/
structure EInv (w : ℕ → ℕ → ℚ) (ny i : ℕ) (hs : HState) (way : ℕ → Option ℕ)
    (j1 : ℕ) (used : List ℕ) : Prop where
  predLT : ∀ j r, hs.pred j = some r → j < ny ∧ r < i
  predInj : ∀ j j2 r, hs.pred j = some r → hs.pred j2 = some r → j = j2
  predOnto : ∀ r, r < i → ∃ j, j < ny ∧ hs.pred j = some r
  feas : ∀ r, r < i → ∀ j, j < ny → 0 ≤ cbar w hs r j
  tight : ∀ j r, hs.pred j = some r → cbar w hs r j = 0
  vUnm : ∀ j, j < ny → hs.pred j = none → hs.v j = 0
  vNonpos : ∀ j, j < ny → hs.v j ≤ 0
  feasI : ∀ j, j < ny → 0 ≤ cbar w hs i j
  j1lt : j1 < ny
  j1unm : hs.pred j1 = none
  j1notUsed : j1 ∉ used
  j1tight : cbar w hs (frontierRow i hs (way j1)) j1 = 0
  j1way : way j1 = none ∨ ∃ jp ∈ used, way j1 = some jp
  usedNd : used.Nodup
  usedOk : ∀ j ∈ used, j < ny ∧ (hs.pred j).isSome
  usedTight : ∀ j ∈ used, cbar w hs (frontierRow i hs (way j)) j = 0
  usedWayOrder : ∀ k (h : k < used.length),
    way (used.get ⟨k, h⟩) = none ∨
      ∃ k2, ∃ h2 : k2 < used.length, k2 < k ∧
        way (used.get ⟨k, h⟩) = some (used.get ⟨k2, h2⟩)

/-- A tree row: row `i` or a row matched to a used column. -/
def TreeRow (i : ℕ) (hs : HState) (used : List ℕ) (r : ℕ) : Prop :=
  r = i ∨ ∃ j ∈ used, hs.pred j = some r

instance (i : ℕ) (hs : HState) (used : List ℕ) (r : ℕ) :
    Decidable (TreeRow i hs used r) := by
  rw [TreeRow.eq_def]
  infer_instance

/-! ## Helper lemmas -/

/-- `updateSingle` succeeds exactly on processable pairs. -/
theorem updateSingle_isSome (m : MetricOps α) (st : SingleMetricState) (p r : α) :
    (updateSingle m st p r).isSome = okPair m (p, r) := by
  unfold updateSingle okPair
  cases m.scoreSelf p <;> cases m.scoreSelf r <;> cases m.compute p r <;> simp

/-- A successful `updateSingle` appends exactly one entry to each sequence. -/
theorem updateSingle_eq_some (m : MetricOps α) (st st2 : SingleMetricState) (p r : α)
    (h : updateSingle m st p r = some st2) :
    ∃ a b c, st2 = ⟨st.preds ++ [a], st.refs ++ [b], st.matchScores ++ [c]⟩ := by
  unfold updateSingle at h
  cases hp : m.scoreSelf p <;> rw [hp] at h <;>
    cases hr : m.scoreSelf r <;> try rw [hr] at h
  all_goals try simp at h
  cases hc : m.compute p r <;> rw [hc] at h <;> simp at h
  exact ⟨_, _, _, h.symm⟩

/-- A successful batch over processable pairs appends one entry per pair. -/
theorem updateBatchGo_ok (m : MetricOps α) :
    ∀ (prs : List (α × α)) (st : SingleMetricState),
      (∀ pr ∈ prs, okPair m pr = true) →
      (updateBatchGo m st prs).2 = true ∧
        (updateBatchGo m st prs).1.matchScores.length =
          st.matchScores.length + prs.length := by
  intro prs
  induction prs with
  | nil => intro st _; simp [updateBatchGo]
  | cons pr rest ih =>
    intro st h
    have hok : okPair m pr = true := h pr (by simp)
    have hs : (updateSingle m st pr.1 pr.2).isSome = true := by
      rw [updateSingle_isSome]; exact hok
    obtain ⟨st2, hst2⟩ := Option.isSome_iff_exists.mp hs
    obtain ⟨a, b, c, hab⟩ := updateSingle_eq_some m st st2 pr.1 pr.2 hst2
    have := ih st2 (fun q hq => h q (by simp [hq]))
    simp only [updateBatchGo, hst2]
    refine ⟨this.1, ?_⟩
    rw [this.2, hab]
    simp
    omega

/-- Batch characterization: the reached state is the fold over the longest
processable prefix, and the batch succeeds exactly when every zipped pair is
processable. -/
theorem updateBatchGo_char (m : MetricOps α) :
    ∀ (prs : List (α × α)) (st : SingleMetricState),
      (updateBatchGo m st prs).1 =
        (prs.takeWhile (okPair m)).foldl (fun s pr => (runSingle m s pr.1 pr.2).1) st ∧
      (updateBatchGo m st prs).2 = prs.all (okPair m) := by
  intro prs
  induction prs with
  | nil => intro st; simp [updateBatchGo]
  | cons pr rest ih =>
    intro st
    by_cases hok : okPair m pr = true
    · have hs : (updateSingle m st pr.1 pr.2).isSome = true := by
        rw [updateSingle_isSome]; exact hok
      obtain ⟨st2, hst2⟩ := Option.isSome_iff_exists.mp hs
      simp only [updateBatchGo, hst2, List.takeWhile_cons, hok, List.all_cons,
        if_pos, List.foldl_cons, runSingle]
      constructor
      · exact (ih st2).1
      · rw [(ih st2).2]; simp
    · have hn : updateSingle m st pr.1 pr.2 = none := by
        have := updateSingle_isSome m st pr.1 pr.2
        rw [Bool.eq_false_iff.mpr hok] at this
        exact Option.not_isSome_iff_eq_none.mp (by rw [this]; simp)
      simp only [updateBatchGo, hn, List.takeWhile_cons, List.all_cons,
        Bool.eq_false_iff.mpr hok]
      simp

/-- `wfState` is preserved by one operation. -/
theorem wfState_applyOp (m : MetricOps α) (st : SingleMetricState)
    (h : wfState st) (op : StateOp α) : wfState (applyOp m st op) := by
  cases op with
  | single p r =>
    simp only [applyOp, runSingle]
    cases hu : updateSingle m st p r with
    | none => exact h
    | some st2 =>
      obtain ⟨a, b, c, hab⟩ := updateSingle_eq_some m st st2 p r hu
      subst hab
      obtain ⟨h1, h2⟩ := h
      constructor <;> simp [h1, h2]
  | batch ps rs =>
    simp only [applyOp, updateBatch]
    generalize ps.zip rs = prs
    induction prs generalizing st with
    | nil => simpa [updateBatchGo]
    | cons pr rest ih =>
      simp only [updateBatchGo]
      cases hu : updateSingle m st pr.1 pr.2 with
      | none => exact h
      | some st2 =>
        obtain ⟨a, b, c, hab⟩ := updateSingle_eq_some m st st2 pr.1 pr.2 hu
        refine ih st2 ?_
        subst hab
        obtain ⟨h1, h2⟩ := h
        constructor <;> simp [h1, h2]
  | reset => exact ⟨rfl, rfl⟩

/-! ## Claim C4 (`update_batch` and length mismatch) -/

/-- C4 counterexample: calling `update_batch` with `preds = [1, 2]` and
`refs = [1]` (different lengths) raises no error: it succeeds, silently
processing the single zipped pair — contradicting the claim that the
operation fails with a length-mismatch error before processing any pair. -/
theorem c4_counterexample :
    ([(1 : ℚ), 2].length ≠ [(1 : ℚ)].length) ∧
      updateBatch discreteOps resetState [1, 2] [1] = (⟨[1], [1], [1]⟩, true) := by
  constructor
  · decide
  · rfl

/-- C4 (amended): `update_batch` is `update_single` over `zip(preds, refs)`
with no length check: for inputs of any two lengths (and a metric whose
evaluations succeed) it raises no error and processes exactly
`min len(preds) len(refs)` pairs. -/
theorem c4_theorem {α : Type} (m : MetricOps α) (st : SingleMetricState)
    (ps rs : List α) (h : ∀ p r, okPair m (p, r) = true) :
    (updateBatch m st ps rs).2 = true ∧
      (updateBatch m st ps rs).1.matchScores.length =
        st.matchScores.length + min ps.length rs.length := by
  have hall : ∀ pr ∈ ps.zip rs, okPair m pr = true := fun pr _ => h pr.1 pr.2
  have := updateBatchGo_ok m (ps.zip rs) st hall
  rw [updateBatch]
  refine ⟨this.1, ?_⟩
  rw [this.2, List.length_zip]

/-- C4 witness: the amended theorem at the discrete metric over `ℚ`,
`preds = [1, 2]`, `refs = [1]`. -/
theorem c4_witness :
    (updateBatch discreteOps resetState [1, 2] [1]).2 = true ∧
      (updateBatch discreteOps resetState [1, 2] [1]).1.matchScores.length =
        resetState.matchScores.length + min [(1 : ℚ), 2].length [(1 : ℚ)].length :=
  c4_theorem discreteOps resetState [1, 2] [1] (fun _ _ => rfl)

/-! ## Claim C7 (state invariant and failure atomicity) -/

/-- On the `1:*` constraint the tagged compute score is a Python number whose
value is the `ℚ`-valued embedding (`_problem.py` passes the total through
`.item()`). -/
theorem computeV_oneToMany_py {α : Type} (innerScore : α → α → ℚ) (x y : List α) :
    setMatchingComputeScoreV innerScore .oneToMany x y =
      .py (setMatchingComputeScore innerScore .oneToMany x y) := by
  rw [setMatchingComputeScoreV, setMatchingComputeScore]
  by_cases h1 : x.isEmpty ∧ y.isEmpty
  · rw [if_pos h1, if_pos h1]
  · rw [if_neg h1, if_neg h1]
    by_cases h2 : x.isEmpty ∨ y.isEmpty
    · rw [if_pos h2, if_pos h2]
    · rw [if_neg h2, if_neg h2]

/-- On the `1:*` constraint the tagged self-score is a Python number whose
value is the `ℚ`-valued embedding (it delegates to `score(x, x)`). -/
theorem selfV_oneToMany_py {α : Type} (innerScore : α → α → ℚ)
    (innerSelf : α → ℚ) (x : List α) :
    setMatchingScoreSelfV innerScore innerSelf .oneToMany x =
      .py (setMatchingScoreSelfGen innerScore innerSelf .oneToMany x) := by
  rw [setMatchingScoreSelfV, setMatchingScoreSelfGen]
  by_cases h1 : x.isEmpty
  · rw [if_pos h1, if_pos h1]
  · rw [if_neg h1, if_neg h1,
      if_neg (by intro h; cases h), if_neg (by intro h; cases h),
      if_neg (by intro h; cases h), if_neg (by intro h; cases h)]
    exact computeV_oneToMany_py innerScore x x

/-- The precision-normalized `1:*` set-matching pipeline carries only Python
numbers: the tagged composition equals the `ℚ`-valued composition with every
score tagged as a Python number, so its divisions really raise on zero
denominators. -/
theorem oneToMany_pipeline_py (x y : List ℚ) :
    normalizedComputeScoreV (setMatchingComputeScoreV mulScore .oneToMany)
      (setMatchingScoreSelfV mulScore (fun u => mulScore u u) .oneToMany)
      precisionNormalizeV x y =
    (normalizedComputeScore (setMatchingComputeScore mulScore .oneToMany)
      (setMatchingScoreSelfGen mulScore (fun u => mulScore u u) .oneToMany)
      precisionNormalize x y).map PyVal.py := by
  rw [normalizedComputeScoreV, normalizedComputeScore,
    computeV_oneToMany_py, selfV_oneToMany_py, selfV_oneToMany_py]
  rw [precisionNormalizeV, pyDiv, precisionNormalize]
  by_cases h : setMatchingScoreSelfGen mulScore (fun u => mulScore u u)
      MatchingConstraint.oneToMany x = 0
  · rw [if_pos h, if_pos h]
    rfl
  · rw [if_neg h, if_neg h]
    rfl

/-- C7 counterexample: a failing `update_batch` does not leave the three
sequences as they were before the call.  With the precision-normalized `1:*`
set matching over a user `from_function` metric — a pipeline whose scores are
all Python floats, so its zero division really raises — the batch
`([[1], [0]], [[1], [0]])` processes its first pair, then fails on the second
(`ZeroDivisionError`: the prediction self-score is `0`); the state keeps the
first pair. -/
theorem c7_counterexample :
    updateBatch normPrecisionSetMulOM resetState [[1], [0]] [[1], [0]] =
      (⟨[1], [1], [1]⟩, false) ∧
      (⟨[1], [1], [1]⟩ : SingleMetricState) ≠ resetState := by
  constructor
  · simp only [updateBatch, updateBatchGo, updateSingle, normPrecisionSetMulOM,
      normalizedComputeScore, setMatchingComputeScore, setMatchingScoreSelfGen,
      gramMatrix, assignmentSolve, precisionNormalize, mulScore, resetState]
    norm_num [List.zip, List.zipWith, listMax, matCol, matEntry, listArgmax,
      List.range, List.range.loop]
  · intro h
    have : ([(1 : ℚ)] : List ℚ) = [] := congrArg SingleMetricState.preds h
    simp at this

/-- C7 (amended): for every metric and every sequence of `update_single`,
`update_batch` and `reset` operations, the three sequences keep equal length
at every point; a failing `update_single` leaves the state exactly as before
the call; a failing `update_batch` keeps exactly the pairs of the longest
processable prefix of the zipped input (so it need not restore the
pre-call state). -/
theorem c7_theorem {α : Type} (m : MetricOps α) (st : SingleMetricState)
    (ops : List (StateOp α)) (h : wfState st) :
    wfState (applyOps m st ops) ∧
      (∀ p r, updateSingle m st p r = none → (runSingle m st p r).1 = st) ∧
      (∀ ps rs : List α,
        (updateBatch m st ps rs).1 =
          ((ps.zip rs).takeWhile (okPair m)).foldl
            (fun s pr => (runSingle m s pr.1 pr.2).1) st ∧
        (updateBatch m st ps rs).2 = (ps.zip rs).all (okPair m)) := by
  refine ⟨?_, ?_, ?_⟩
  · induction ops generalizing st with
    | nil => exact h
    | cons op rest ih =>
      exact ih (applyOp m st op) (wfState_applyOp m st h op)
  · intro p r hn
    simp [runSingle, hn]
  · intro ps rs
    exact updateBatchGo_char m (ps.zip rs) st

/-- C7 witness: the amended theorem at the discrete metric over `ℚ`, the
empty state and a batch-then-single operation sequence. -/
theorem c7_witness :
    wfState (applyOps discreteOps resetState
        [StateOp.batch [1, 2] [1, 3], StateOp.single 4 4]) ∧
      (∀ p r, updateSingle discreteOps resetState p r = none →
        (runSingle discreteOps resetState p r).1 = resetState) ∧
      (∀ ps rs : List ℚ,
        (updateBatch discreteOps resetState ps rs).1 =
          ((ps.zip rs).takeWhile (okPair discreteOps)).foldl
            (fun s pr => (runSingle discreteOps s pr.1 pr.2).1) resetState ∧
        (updateBatch discreteOps resetState ps rs).2 =
          (ps.zip rs).all (okPair discreteOps)) :=
  c7_theorem discreteOps resetState [StateOp.batch [1, 2] [1, 3], StateOp.single 4 4]
    ⟨rfl, rfl⟩

/-! ## Claim C1 (Discrete/1:1 set matching) -/

/-- The length of a `flatMap` is the sum of the inner lengths. -/
theorem flatMap_length_sum (l : List γ) (f : γ → List δ) :
    (l.flatMap f).length = (l.map (fun a => (f a).length)).sum := by
  induction l with
  | nil => rfl
  | cons a l ih => simp [List.flatMap_cons, ih]

/-- `idxsOfFrom` lists one index per occurrence. -/
theorem idxsOfFrom_length [DecidableEq α] (u : α) (l : List α) :
    ∀ k, (idxsOfFrom u l k).length = l.count u := by
  induction l with
  | nil => intro k; simp [idxsOfFrom]
  | cons a l ih =>
    intro k
    by_cases h : a = u
    · simp [idxsOfFrom, h, ih, List.count_cons]
    · simp [idxsOfFrom, h, ih, List.count_cons, Ne.symm h]

/-- `idxsOf` lists one index per occurrence. -/
theorem idxsOf_length [DecidableEq α] (u : α) (l : List α) :
    (idxsOf u l).length = l.count u := idxsOfFrom_length u l 0

/-- The deduplicated shared-value list underlies `set(x) & set(y)`. -/
theorem dedupFilter_toFinset [DecidableEq α] (x y : List α) :
    (x.dedup.filter (fun u => decide (u ∈ y))).toFinset = x.toFinset ∩ y.toFinset := by
  ext a
  simp [List.mem_filter, List.mem_dedup]

/-- The Discrete/1:1 branch emits exactly one pair match per
multiset-intersected occurrence. -/
theorem discretePairMatches_length [DecidableEq α] (x y : List α) :
    (discretePairMatches x y).length = counterIntersectionCount x y := by
  unfold discretePairMatches
  rw [flatMap_length_sum]
  simp only [List.length_map, List.length_zip, idxsOf_length]
  unfold counterIntersectionCount
  rw [← dedupFilter_toFinset x y,
    List.sum_toFinset _ ((x.nodup_dedup).filter _)]

/-- C1 counterexample: on `x = y = [1, 1]` the Discrete/1:1
`SetMatchingMetric.compute` returns score `1` (the number of *distinct*
shared values, `len(set(x) & set(y))`), while the multiset-intersection
(`Counter`) count is `2` — the claimed score equality fails.  (The repo's own
test endorses the code: it asserts `score([1,1,1,2], [1,1,1,2]) == 2`, not
`4`.) -/
theorem c1_counterexample :
    (setMatchingDiscreteCompute .oneToOne ([1, 1] : List ℤ) [1, 1]).1 = 1 ∧
    counterIntersectionCount ([1, 1] : List ℤ) [1, 1] = 2 := by
  constructor
  · simp [setMatchingDiscreteCompute]
  · decide

/-- C1 (amended): for non-empty collections under a `DiscreteMetric` inner
metric and the 1:1 constraint, `SetMatchingMetric.compute` returns as its
score the number of *distinct* shared values (`len(set(x) & set(y))`, not the
multiset-intersection count), and emits — after the root match — exactly one
pair match per multiset-intersected occurrence (one per `min` of the two
multiplicities of each shared value). -/
theorem c1_theorem {α : Type} [DecidableEq α] (x y : List α) (hx : x ≠ []) (hy : y ≠ []) :
    (setMatchingDiscreteCompute .oneToOne x y).1 = ((x.toFinset ∩ y.toFinset).card : ℚ) ∧
    (setMatchingDiscreteCompute .oneToOne x y).2 =
      (Path.mk [], Path.mk [], ((x.toFinset ∩ y.toFinset).card : ℚ)) ::
        discretePairMatches x y ∧
    (discretePairMatches x y).length = counterIntersectionCount x y := by
  unfold setMatchingDiscreteCompute
  rw [if_neg (by simp [hx]), if_neg (by simp [hx, hy]), if_pos rfl]
  exact ⟨rfl, rfl, discretePairMatches_length x y⟩

/-- C1 witness: the amended theorem at the spec's own example
`x = [1, 2, 2]`, `y = [1, 1, 1, 2]`. -/
theorem c1_witness :
    (setMatchingDiscreteCompute .oneToOne ([1, 2, 2] : List ℤ) [1, 1, 1, 2]).1 =
      ((([1, 2, 2] : List ℤ).toFinset ∩ ([1, 1, 1, 2] : List ℤ).toFinset).card : ℚ) ∧
    (setMatchingDiscreteCompute .oneToOne ([1, 2, 2] : List ℤ) [1, 1, 1, 2]).2 =
      (Path.mk [], Path.mk [],
        ((([1, 2, 2] : List ℤ).toFinset ∩ ([1, 1, 1, 2] : List ℤ).toFinset).card : ℚ)) ::
        discretePairMatches ([1, 2, 2] : List ℤ) [1, 1, 1, 2] ∧
    (discretePairMatches ([1, 2, 2] : List ℤ) [1, 1, 1, 2]).length =
      counterIntersectionCount ([1, 2, 2] : List ℤ) [1, 1, 1, 2] :=
  c1_theorem ([1, 2, 2] : List ℤ) [1, 1, 1, 2] (by decide) (by decide)

/-! ## Claim C5 (`score_self` of `y = [1,1,1,2]`) -/

/-- C5 counterexample: under the 1:1 constraint,
`SetMatchingMetric.score_self([1,1,1,2])` returns the sum of element
self-scores, `4` — not the claimed `2`. -/
theorem c5_counterexample :
    setMatchingDiscreteScoreSelf .oneToOne ([1, 1, 1, 2] : List ℤ) = 4 ∧
      (4 : ℚ) ≠ 2 := by
  constructor
  · simp only [setMatchingDiscreteScoreSelf, List.map, List.sum, List.foldl, List.foldr]
    norm_num
    simp
  · norm_num

/-- C5 (amended): for `y = [1, 1, 1, 2]` with a discrete inner metric,
`score_self(y)` equals `4` under 1:1 (sum of element self-scores), `4` under
1:* and `*:1` (via `score(y, y)` through the assignment problem), and `10`
under `*:*` (gram-matrix sum). -/
theorem c5_theorem :
    setMatchingDiscreteScoreSelf .oneToOne ([1, 1, 1, 2] : List ℤ) = 4 ∧
    setMatchingDiscreteScoreSelf .oneToMany ([1, 1, 1, 2] : List ℤ) = 4 ∧
    setMatchingDiscreteScoreSelf .manyToOne ([1, 1, 1, 2] : List ℤ) = 4 ∧
    setMatchingDiscreteScoreSelf .manyToMany ([1, 1, 1, 2] : List ℤ) = 10 := by
  refine ⟨?_, ?_, ?_, ?_⟩ <;>
    simp only [setMatchingDiscreteScoreSelf, setMatchingDiscreteCompute, assignmentSolve,
      discreteGram, gramMatrix, matCol, matEntry, listMax, listArgmax, List.map, List.sum,
      List.foldl, List.foldr, List.range, List.range.loop, List.headD, max_def] <;>
    norm_num <;> simp

/-! ## Claim C10 (normalizers are partial) -/

/-- C10 counterexample: on the claim's cited reachable path — precision-
normalized `*:*` set matching of the disjoint collections `([0], [1])` over a
user `from_function` inner metric — the prediction self-score reaches the
division as the *numpy scalar* `gram_matrix(x, x).sum()` (no `.item()`), so
the division returns `nan` with a `RuntimeWarning` instead of raising: the
composite does not fail there, refuting "fails ... for every input with
`score_xx = 0`" at the public interface. -/
theorem c10_counterexample :
    setMatchingScoreSelfV mulScore (fun u => mulScore u u) .manyToMany
      [(0 : ℚ)] = .np 0 ∧
    normalizedComputeScoreV (setMatchingComputeScoreV mulScore .manyToMany)
      (setMatchingScoreSelfV mulScore (fun u => mulScore u u) .manyToMany)
      precisionNormalizeV [(0 : ℚ)] [1] = some .npNonfinite := by
  constructor
  · simp only [setMatchingScoreSelfV, gramMatrix, mulScore]
    norm_num
  · simp only [normalizedComputeScoreV, setMatchingComputeScoreV,
      setMatchingScoreSelfV, gramMatrix, assignmentSolve, mulScore,
      precisionNormalizeV, pyDiv, PyVal.val]
    norm_num

/-- C10 (amended): the dividing normalizers are unguarded, and whether a zero
denominator fails depends on its Python-level type.  On Python-number
operands, `Precision.normalize` raises (`ZeroDivisionError`) exactly when
`score_xx = 0`, `Recall.normalize` exactly when `score_yy = 0`, and
`Jaccard.normalize` exactly when `score_xx + score_yy - score_xy = 0`; only
`FScore` guards, via its `score_xy > 0` branch.  When the denominator is a
*numpy-scalar* zero the division never raises: it yields a non-finite float
with a `RuntimeWarning` — which is what happens on the `*:*` set-matching
path, whose `score_self` is a numpy scalar.  The raising division is
nevertheless reachable: the precision-normalized `1:*` set matching over a
`from_function` inner metric (all scores pass through `.item()` or Python
`sum`) fails on the disjoint collections `([0], [1])`, whose prediction
self-score is the Python float `0.0`. -/
theorem c10_theorem :
    (∀ sxy sxx syy : ℚ,
      (precisionNormalizeV (.py sxy) (.py sxx) (.py syy) = none ↔ sxx = 0)) ∧
    (∀ sxy sxx syy : ℚ,
      (recallNormalizeV (.py sxy) (.py sxx) (.py syy) = none ↔ syy = 0)) ∧
    (∀ sxy sxx syy : ℚ,
      (jaccardNormalizeV (.py sxy) (.py sxx) (.py syy) = none ↔
        sxx + syy - sxy = 0)) ∧
    (∀ sxx : ℚ, ∀ sxy : ℚ, sxy ≤ 0 → ∀ syy : ℚ,
      fscoreNormalize 1 sxy sxx syy = some 0) ∧
    (∀ sxy syy : PyVal,
      precisionNormalizeV sxy (.np 0) syy = some .npNonfinite) ∧
    normalizedComputeScoreV (setMatchingComputeScoreV mulScore .oneToMany)
      (setMatchingScoreSelfV mulScore (fun u => mulScore u u) .oneToMany)
      precisionNormalizeV [(0 : ℚ)] [1] = none := by
  refine ⟨?_, ?_, ?_, ?_, ?_, ?_⟩
  · intro sxy sxx syy
    simp only [precisionNormalizeV, pyDiv]
    split <;> simp_all
  · intro sxy sxx syy
    simp only [recallNormalizeV, pyDiv]
    split <;> simp_all
  · intro sxy sxx syy
    simp only [jaccardNormalizeV, pyAdd, pySub, pyDiv]
    split <;> simp_all
  · intro sxx sxy h syy
    simp [fscoreNormalize, not_lt.mpr h]
  · intro sxy syy
    cases sxy <;> simp [precisionNormalizeV, pyDiv, PyVal.val]
  · simp only [normalizedComputeScoreV, setMatchingComputeScoreV,
      setMatchingScoreSelfV, gramMatrix, assignmentSolve, mulScore,
      precisionNormalizeV, pyDiv, listMax, matCol, matEntry]
    norm_num
    rfl

/-- C10 witness: the Python-number partiality at `(3, 0, 5)`, `(3, 4, 0)` and
`(2, 1, 1)`, the `FScore` guard at `(0, 7, 9)`, and the non-raising numpy
zero division at `(3, np 0, 5)`. -/
theorem c10_witness :
    precisionNormalizeV (.py 3) (.py 0) (.py 5) = none ∧
    recallNormalizeV (.py 3) (.py 4) (.py 0) = none ∧
    jaccardNormalizeV (.py 2) (.py 1) (.py 1) = none ∧
    fscoreNormalize 1 0 7 9 = some 0 ∧
    precisionNormalizeV (.py 3) (.np 0) (.py 5) = some .npNonfinite :=
  ⟨(c10_theorem.1 3 0 5).mpr rfl,
    (c10_theorem.2.1 3 4 0).mpr rfl,
    (c10_theorem.2.2.1 2 1 1).mpr (by norm_num),
    c10_theorem.2.2.2.1 7 0 (le_refl 0) 9,
    c10_theorem.2.2.2.2.1 (.py 3) (.py 5)⟩

/-! ## Claim C3 (variable matching is always one-to-one) -/

/-- Every coefficient of a variable-matching row is `0` or `1`, hence
non-negative. -/
theorem varMatchingRow_nonneg (nx ny nyv r c : ℕ) : 0 ≤ varMatchingRow nx ny nyv r c := by
  unfold varMatchingRow oneToOneRow oneToManyRow manyToOneRow
  repeat' split
  all_goals norm_num

/-- Two distinct unit coordinates with unit coefficients force a row dot
product of at least `2`. -/
theorem two_le_rowDot (N : ℕ) (row z : ℕ → ℚ) (c1 c2 : ℕ) (hne : c1 ≠ c2)
    (h1N : c1 < N) (h2N : c2 < N) (hr1 : row c1 = 1) (hr2 : row c2 = 1)
    (hz1 : z c1 = 1) (hz2 : z c2 = 1)
    (hnn : ∀ c, c < N → 0 ≤ row c * z c) :
    2 ≤ rowDot N row z := by
  unfold rowDot
  have hsub : ({c1, c2} : Finset ℕ) ⊆ Finset.range N := by
    intro c hc
    rcases Finset.mem_insert.mp hc with h | h
    · subst h; exact Finset.mem_range.mpr h1N
    · rw [Finset.mem_singleton.mp h]; exact Finset.mem_range.mpr h2N
  have hle := Finset.sum_le_sum_of_subset_of_nonneg hsub
    (fun i hiN _ => hnn i (Finset.mem_range.mp hiN))
  calc (2 : ℚ) = ∑ c ∈ ({c1, c2} : Finset ℕ), row c * z c := by
        rw [Finset.sum_pair hne, hr1, hr2, hz1, hz2]; norm_num
    _ ≤ _ := hle

/-- C3: in every feasible solution of the 0/1 ILP that
`LatentSetMatchingMetric.compute` builds — for any item-matching constraint
kind and any latent candidate list — each prediction-side variable binds at
most one reference-side variable and vice versa: the `s`-block always carries
the one-to-one constraint built by `VariableMatchingConstraintBuilder`. -/
theorem c3_theorem (nx ny nxv nyv : ℕ) (k : MatchingConstraint)
    (L : List ((ℕ × ℕ) × (ℕ × ℕ))) (z : ℕ → ℚ)
    (hf : ilpFeasible nx ny nxv nyv k L z) :
    (∀ p < nxv, ∀ q < nyv, ∀ q2 < nyv,
      sVar nx ny nyv z p q = 1 → sVar nx ny nyv z p q2 = 1 → q = q2) ∧
    (∀ q < nyv, ∀ p < nxv, ∀ p2 < nxv,
      sVar nx ny nyv z p q = 1 → sVar nx ny nyv z p2 q = 1 → p = p2) := by
  obtain ⟨hb, -, hv, -⟩ := hf
  have hznn : ∀ c, c < nx * ny + nxv * nyv → 0 ≤ z c := by
    intro c hc
    rcases hb c hc with h | h
    all_goals rw [h]
    all_goals norm_num
  have hidx : ∀ p q, p < nxv → q < nyv →
      nx * ny + p * nyv + q < nx * ny + nxv * nyv := by
    intro p q hp hq
    have : p * nyv + q < (p + 1) * nyv := by
      rw [Nat.succ_mul]; omega
    have h2 : (p + 1) * nyv ≤ nxv * nyv := Nat.mul_le_mul_right nyv hp
    omega
  constructor
  · intro p hp q hq q2 hq2 hz1 hz2
    by_contra hne
    have hnyv : 0 < nyv := by omega
    have hvar := hv
    rw [varBlockFeasible, if_neg (by omega)] at hvar
    have hrow := hvar (nyv + p) (by omega)
    have hval : ∀ q3, q3 < nyv →
        varMatchingRow nx ny nyv (nyv + p) (nx * ny + p * nyv + q3) = 1 := by
      intro q3 hq3
      unfold varMatchingRow
      rw [if_neg (show ¬(nx * ny + p * nyv + q3 < nx * ny) by omega)]
      unfold oneToOneRow
      rw [if_neg (show ¬(nyv + p < nyv) by omega)]
      unfold manyToOneRow
      have harg : nx * ny + p * nyv + q3 - nx * ny = p * nyv + q3 := by omega
      have hdiv : (p * nyv + q3) / nyv = p := by
        rw [Nat.mul_comm p nyv, Nat.mul_add_div hnyv, Nat.div_eq_of_lt hq3]
        omega
      rw [harg, hdiv, if_pos (by omega)]
    have h2le := two_le_rowDot (nx * ny + nxv * nyv)
      (varMatchingRow nx ny nyv (nyv + p)) z
      (nx * ny + p * nyv + q) (nx * ny + p * nyv + q2) (by omega)
      (hidx p q hp hq) (hidx p q2 hp hq2) (hval q hq) (hval q2 hq2) hz1 hz2
      (fun c hc => mul_nonneg (varMatchingRow_nonneg nx ny nyv (nyv + p) c) (hznn c hc))
    rw [rowDot] at hrow h2le
    linarith
  · intro q hq p hp p2 hp2 hz1 hz2
    by_contra hne
    have hnyv : 0 < nyv := by omega
    have hvar := hv
    rw [varBlockFeasible, if_neg (by omega)] at hvar
    have hrow := hvar q (by omega)
    have hval : ∀ p3, p3 < nxv →
        varMatchingRow nx ny nyv q (nx * ny + p3 * nyv + q) = 1 := by
      intro p3 hp3
      unfold varMatchingRow
      rw [if_neg (show ¬(nx * ny + p3 * nyv + q < nx * ny) by omega)]
      unfold oneToOneRow
      rw [if_pos hq]
      unfold oneToManyRow
      have harg : nx * ny + p3 * nyv + q - nx * ny = p3 * nyv + q := by omega
      have hmod : (p3 * nyv + q) % nyv = q := by
        rw [Nat.mul_comm p3 nyv, Nat.mul_add_mod, Nat.mod_eq_of_lt hq]
      rw [harg, hmod, if_pos rfl]
    have hcne : nx * ny + p * nyv + q ≠ nx * ny + p2 * nyv + q := by
      intro h
      have h2 : p * nyv = p2 * nyv := by omega
      exact hne (Nat.eq_of_mul_eq_mul_right hnyv h2)
    have h2le := two_le_rowDot (nx * ny + nxv * nyv)
      (varMatchingRow nx ny nyv q) z
      (nx * ny + p * nyv + q) (nx * ny + p2 * nyv + q) hcne
      (hidx p q hp hq) (hidx p2 q hp2 hq) (hval p hp) (hval p2 hp2) hz1 hz2
      (fun c hc => mul_nonneg (varMatchingRow_nonneg nx ny nyv q c) (hznn c hc))
    rw [rowDot] at hrow h2le
    linarith


/-- C3 witness: the theorem at the all-zero solution of the 1×1 problem with
one variable pair under the `*:*` item constraint. -/
theorem c3_witness :
    (∀ p < 1, ∀ q < 1, ∀ q2 < 1,
      sVar 1 1 1 (fun _ => 0) p q = 1 → sVar 1 1 1 (fun _ => 0) p q2 = 1 → q = q2) ∧
    (∀ q < 1, ∀ p < 1, ∀ p2 < 1,
      sVar 1 1 1 (fun _ => 0) p q = 1 → sVar 1 1 1 (fun _ => 0) p2 q = 1 → p = p2) :=
  c3_theorem 1 1 1 1 .manyToMany [] (fun _ => 0)
    ⟨fun _ _ => Or.inl rfl,
     fun r hr => absurd hr (by simp [matchingRowCount]),
     by
       rw [varBlockFeasible, if_neg (by omega)]
       intro r _
       simp [rowDot],
     fun e he => absurd he (List.not_mem_nil e)⟩

/-! ## Claim C6 (variable detection in derivation) -/

/-- `may_be_variable` implies the spec's transitive predicate. -/
theorem mayBe_implies_transitive (t : TypeDesc)
    (h : mayBeVariable t = true) : containsVariableTransitive t = true := by
  cases t with
  | var => rfl
  | unionT cs => exact h
  | record fs => exact absurd h (by rw [mayBeVariable]; simp)
  | coll e => exact absurd h (by rw [mayBeVariable]; simp)
  | atomicEq => exact absurd h (by rw [mayBeVariable]; simp)
  | opaqueT => exact absurd h (by rw [mayBeVariable]; simp)

/-- `dataclass_has_variable` implies the spec's transitive predicate. -/
theorem direct_implies_transitive (e : TypeDesc)
    (h : dataclassHasVariable e = true) : containsVariableTransitive e = true := by
  cases e with
  | var => rfl
  | record fs =>
    rw [containsVariableTransitive]
    rw [dataclassHasVariable] at h
    induction fs with
    | nil => simp at h
    | cons f fs ih =>
      rw [cvtFields]
      rw [List.any_cons] at h
      rcases Bool.or_eq_true_iff.mp h with h1 | h1
      · rw [mayBe_implies_transitive f.2 h1]
        simp
      · rw [ih h1]
        simp
  | unionT cs => exact absurd h (by rw [dataclassHasVariable]; simp)
  | coll e => exact absurd h (by rw [dataclassHasVariable]; simp)
  | atomicEq => exact absurd h (by rw [dataclassHasVariable]; simp)
  | opaqueT => exact absurd h (by rw [dataclassHasVariable]; simp)

/-- C6 (amended): `derive_metric` on a collection returns a
`LatentSetMatchingMetric` exactly when `dataclass_has_variable` holds of the
element type — a one-level check: the element type is `Variable` itself, or a
dataclass with a *direct* field whose annotation is `Variable` or a union
containing `Variable`.  A collection whose element type contains no
`Variable` even transitively still gets a `SetMatchingMetric`. -/
theorem c6_theorem (e : TypeDesc) (k : MatchingConstraint) :
    (dataclassHasVariable e = true →
      ∀ m, deriveMetric (.coll e) k = some m →
        ∃ i, deriveMetric e k = some i ∧ m = .latentSet i) ∧
    (containsVariableTransitive e = false →
      ∀ m, deriveMetric (.coll e) k = some m →
        ∃ i, deriveMetric e k = some i ∧ m = .setM i) := by
  constructor
  · intro hd m hm
    rw [deriveMetric] at hm
    cases hi : deriveMetric e k with
    | none => rw [hi] at hm; simp at hm
    | some i =>
      rw [hi, Option.map_some'] at hm
      have hm2 := Option.some.inj hm
      refine ⟨i, rfl, ?_⟩
      rw [hd] at hm2
      exact hm2.symm
  · intro ht m hm
    have hdf : dataclassHasVariable e = false := by
      cases hdv : dataclassHasVariable e with
      | false => rfl
      | true => rw [direct_implies_transitive e hdv] at ht; exact absurd ht (by simp)
    rw [deriveMetric] at hm
    cases hi : deriveMetric e k with
    | none => rw [hi] at hm; simp at hm
    | some i =>
      rw [hi, Option.map_some'] at hm
      have hm2 := Option.some.inj hm
      refine ⟨i, rfl, ?_⟩
      rw [hdf] at hm2
      exact hm2.symm

/-- C6 counterexample: the transitive part of the claim fails.  For a
collection whose element type is a record with a field that is itself a
record containing a `Variable`, the element type contains a `Variable`
transitively, yet `derive_metric` returns a `SetMatchingMetric`, not the
claimed `LatentSetMatchingMetric` (`dataclass_has_variable` does not recurse
into nested dataclasses). -/
theorem c6_counterexample :
    containsVariableTransitive (.record [("f", .record [("g", .var)])]) = true ∧
    deriveMetric (.coll (.record [("f", .record [("g", .var)])])) .oneToOne =
      some (.setM (.product [("f", .product [("g", .varLatent)])])) ∧
    some (DerivedMetric.setM (.product [("f", .product [("g", .varLatent)])])) ≠
      some (DerivedMetric.latentSet (.product [("f", .product [("g", .varLatent)])])) := by
  refine ⟨?_, ?_, ?_⟩
  · rfl
  · rfl
  · intro h
    injection h with h2
    exact DerivedMetric.noConfusion h2


/-- C6 witness: the amended theorem at the element type `record [f : Variable]`
(first part) and at `atomicEq` (second part). -/
theorem c6_witness :
    (∃ i, deriveMetric (.record [("f", .var)]) .oneToOne = some i ∧
      DerivedMetric.latentSet (.product [("f", .varLatent)]) = .latentSet i) ∧
    (∃ i, deriveMetric .atomicEq .oneToOne = some i ∧
      DerivedMetric.setM .discrete = .setM i) :=
  ⟨(c6_theorem (.record [("f", .var)]) .oneToOne).1 rfl
      (.latentSet (.product [("f", .varLatent)])) rfl,
   (c6_theorem .atomicEq .oneToOne).2 rfl (.setM .discrete) rfl⟩

/-! ## Claim C8 (`Path.selects`) -/

/-- Pointwise characterization of `all` over a `zip`. -/
theorem all_zip_iff_get {γ δ : Type} (f : γ × δ → Bool) :
    ∀ (l1 : List γ) (l2 : List δ),
      ((l1.zip l2).all f = true ↔
        ∀ i (h1 : i < l1.length) (h2 : i < l2.length),
          f (l1.get ⟨i, h1⟩, l2.get ⟨i, h2⟩) = true) := by
  intro l1
  induction l1 with
  | nil => intro l2; simp
  | cons a l1 ih =>
    intro l2
    cases l2 with
    | nil => simp
    | cons b l2 =>
      simp only [List.zip_cons_cons, List.all_cons, Bool.and_eq_true, ih l2]
      constructor
      · rintro ⟨hab, hrest⟩ i h1 h2
        cases i with
        | zero => exact hab
        | succ j => exact hrest j (Nat.lt_of_succ_lt_succ h1) (Nat.lt_of_succ_lt_succ h2)
      · intro h
        refine ⟨h 0 (by simp) (by simp), fun j hj1 hj2 => ?_⟩
        exact h (j + 1) (Nat.succ_lt_succ hj1) (Nat.succ_lt_succ hj2)

/-- C8: `p.selects(q)` holds exactly when the two paths have the same number
of components and each component of `p` covers the corresponding component of
`q`; a wildcard component (`[*]`, i.e. index `-1`, over indices; the name `*`
over names) covers any concrete component of its kind; in particular
`a.b[*]` selects `a.b[0]` but neither `a.c[0]` nor `a.b`. -/
theorem c8_theorem :
    (∀ p q : Path, p.selects q = true ↔
      (p.components.length = q.components.length ∧
        ∀ i (h1 : i < p.components.length) (h2 : i < q.components.length),
          componentCovers (p.components.get ⟨i, h1⟩) (q.components.get ⟨i, h2⟩) = true)) ∧
    (∀ sel comp : PathComponent, componentCovers sel comp = true ↔
      ((∃ i j : Int, sel = .idx i ∧ comp = .idx j ∧ (i = j ∨ i = -1)) ∨
       (∃ s t : String, sel = .name s ∧ comp = .name t ∧ (s = t ∨ s = "*")))) ∧
    Path.selects ⟨[.name "a", .name "b", .idx (-1)]⟩ ⟨[.name "a", .name "b", .idx 0]⟩ = true ∧
    Path.selects ⟨[.name "a", .name "b", .idx (-1)]⟩ ⟨[.name "a", .name "c", .idx 0]⟩ = false ∧
    Path.selects ⟨[.name "a", .name "b", .idx (-1)]⟩ ⟨[.name "a", .name "b"]⟩ = false := by
  refine ⟨?_, ?_, by decide, by decide, by decide⟩
  · intro p q
    unfold Path.selects
    rw [Bool.and_eq_true, beq_iff_eq, all_zip_iff_get]
  · intro sel comp
    cases sel <;> cases comp <;> simp [componentCovers]


/-- C8 witness: the characterization applied to the selector `a.b[*]` and the
selected path `a.b[0]`. -/
theorem c8_witness :
    Path.selects ⟨[.name "a", .name "b", .idx (-1)]⟩ ⟨[.name "a", .name "b", .idx 0]⟩ = true ↔
      ((⟨[.name "a", .name "b", .idx (-1)]⟩ : Path).components.length =
        (⟨[.name "a", .name "b", .idx 0]⟩ : Path).components.length ∧
        ∀ i (h1 : i < (⟨[.name "a", .name "b", .idx (-1)]⟩ : Path).components.length)
          (h2 : i < (⟨[.name "a", .name "b", .idx 0]⟩ : Path).components.length),
          componentCovers
            ((⟨[.name "a", .name "b", .idx (-1)]⟩ : Path).components.get ⟨i, h1⟩)
            ((⟨[.name "a", .name "b", .idx 0]⟩ : Path).components.get ⟨i, h2⟩) = true) :=
  c8_theorem.1 ⟨[.name "a", .name "b", .idx (-1)]⟩ ⟨[.name "a", .name "b", .idx 0]⟩

/-! ## Claim C9 (path parse/render round trip) -/

theorem digitCh_toNat {d : ℕ} (hd : d < 10) : (digitCh d).toNat = 48 + d := by
  interval_cases d <;> decide

theorem isDigitCh_digitCh {d : ℕ} (hd : d < 10) : isDigitCh (digitCh d) = true := by
  interval_cases d <;> decide

theorem not_isDelim_digitCh {d : ℕ} (hd : d < 10) : isDelim (digitCh d) = false := by
  interval_cases d <;> decide

theorem natChars_ne_nil (n : ℕ) : natChars n ≠ [] := by
  unfold natChars
  split
  · simp
  · intro h
    rw [List.reverse_eq_nil_iff, List.map_eq_nil_iff] at h
    exact (Nat.digits_ne_nil_iff_ne_zero.mpr (by assumption)) h

theorem natChars_all_digits (n : ℕ) : ∀ c ∈ natChars n, isDigitCh c = true := by
  unfold natChars
  split
  · intro c hc
    simp at hc
    subst hc
    decide
  · intro c hc
    rw [List.mem_reverse, List.mem_map] at hc
    obtain ⟨d, hd, rfl⟩ := hc
    exact isDigitCh_digitCh (Nat.digits_lt_base (by norm_num) hd)

theorem parseNat_natChars (n : ℕ) : parseNat (natChars n) = some n := by
  by_cases h0 : n = 0
  · subst h0
    decide
  · unfold parseNat
    rw [if_pos ⟨by simp [natChars_ne_nil n, List.isEmpty_iff], by
      rw [List.all_eq_true]; exact fun c hc => natChars_all_digits n c hc⟩]
    congr 1
    unfold natChars
    rw [if_neg h0]
    rw [List.map_reverse, List.reverse_reverse, List.map_map]
    have hmap : (Nat.digits 10 n).map ((fun c => c.toNat - 48) ∘ digitCh) =
        Nat.digits 10 n := by
      rw [List.map_congr_left (g := id), List.map_id]
      intro d hd
      have hlt : d < 10 := Nat.digits_lt_base (by norm_num) hd
      simp [Function.comp, digitCh_toNat hlt]
    rw [hmap, Nat.ofDigits_digits]

theorem natChars_head_digit (n : ℕ) :
    ∃ c cs, natChars n = c :: cs ∧ isDigitCh c = true := by
  cases h : natChars n with
  | nil => exact absurd h (natChars_ne_nil n)
  | cons c cs =>
    exact ⟨c, cs, rfl, natChars_all_digits n c (by rw [h]; simp)⟩

theorem parseInt_natChars (n : ℕ) : parseInt (natChars n) = some (n : Int) := by
  obtain ⟨c, cs, hc, hdig⟩ := natChars_head_digit n
  have hcne : c ≠ '-' := by
    intro h
    rw [h] at hdig
    exact absurd hdig (by decide)
  rw [hc]
  have : parseInt (c :: cs) = (parseNat (c :: cs)).map (fun n => (n : Int)) := by
    rw [parseInt.eq_def]
    split
    · rename_i heq
      exact absurd (List.head_eq_of_cons_eq heq.symm).symm hcne
    · rfl
  rw [this, ← hc, parseNat_natChars]
  rfl

theorem parseInt_intChars (i : Int) : parseInt (intChars i) = some i := by
  cases i with
  | ofNat n => exact parseInt_natChars n
  | negSucc m =>
    show parseInt ('-' :: natChars (m + 1)) = some (Int.negSucc m)
    rw [parseInt, parseNat_natChars]
    simp [Int.negSucc_eq]

theorem natChars_ne_star (n : ℕ) : natChars n ≠ ['*'] := by
  intro h
  have := natChars_all_digits n '*' (by rw [h]; simp)
  exact absurd this (by decide)

theorem intStrToIndex_idxStr (i : Int) : intStrToIndex (idxStr i) = some i := by
  unfold idxStr
  by_cases h : i = -1
  · rw [if_pos h, intStrToIndex, if_pos rfl, h]
  · rw [if_neg h, intStrToIndex, if_neg ?_, parseInt_intChars]
    cases i with
    | ofNat n => exact natChars_ne_star n
    | negSucc m =>
      show ('-' :: natChars (m + 1)) ≠ ['*']
      intro hcontra
      exact absurd (List.head_eq_of_cons_eq hcontra) (by decide)

theorem idxStr_ne_nil (i : Int) : idxStr i ≠ [] := by
  unfold idxStr
  split
  · simp
  · cases i with
    | ofNat n => exact natChars_ne_nil n
    | negSucc m => simp [intChars]

theorem isDigit_not_delim {c : Char} (h : isDigitCh c = true) : isDelim c = false := by
  have hne : ∀ d : Char, isDigitCh d = false → c ≠ d := by
    intro d hd he
    rw [he, hd] at h
    exact absurd h (by simp)
  have h1 := hne (Char.ofNat 64) (by decide)
  have h2 := hne (Char.ofNat 46) (by decide)
  have h3 := hne (Char.ofNat 91) (by decide)
  have h4 := hne (Char.ofNat 93) (by decide)
  unfold isDelim
  simp [h1, h2, h3, h4]

theorem idxStr_not_delim (i : Int) : ∀ c ∈ idxStr i, isDelim c = false := by
  unfold idxStr
  split
  · intro c hc; simp at hc; subst hc; decide
  · intro c hc
    cases i with
    | ofNat n => exact isDigit_not_delim (natChars_all_digits n c hc)
    | negSucc m =>
      simp only [intChars, List.mem_cons] at hc
      rcases hc with rfl | hc
      · decide
      · exact isDigit_not_delim (natChars_all_digits (m + 1) c hc)

theorem tokenizeAux_nondelim_chunk (xs : List Char) (h : ∀ c ∈ xs, isDelim c = false) :
    ∀ (rest t : List Char), tokenizeAux (xs ++ rest) t = tokenizeAux rest (t ++ xs) := by
  induction xs with
  | nil => intro rest t; simp
  | cons c xs ih =>
    intro rest t
    have hc : isDelim c = false := h c (by simp)
    rw [List.cons_append, tokenizeAux, if_neg (by rw [hc]; simp)]
    rw [ih (fun d hd => h d (by simp [hd])) rest (t ++ [c])]
    rw [List.append_assoc]
    rfl

theorem tokenize_delim_cons (c : Char) (h : isDelim c = true) (cs : List Char) :
    tokenize (c :: cs) = [c] :: tokenize cs := by
  unfold tokenize
  rw [tokenizeAux, if_pos h]
  rfl

theorem tokenize_chunk (xs : List Char) (hne : xs ≠ [])
    (hnd : ∀ c ∈ xs, isDelim c = false) (rest : List Char)
    (hrest : rest = [] ∨ ∃ c cs, rest = c :: cs ∧ isDelim c = true) :
    tokenize (xs ++ rest) = xs :: tokenize rest := by
  unfold tokenize
  rw [show tokenizeAux (xs ++ rest) [] = tokenizeAux rest xs from by
    have := tokenizeAux_nondelim_chunk xs hnd rest []
    simpa using this]
  rcases hrest with rfl | ⟨c, cs, rfl, hc⟩
  · rw [tokenizeAux, if_neg (by simp [hne, List.isEmpty_iff])]
    rfl
  · rw [tokenizeAux, if_pos hc, if_neg (by simp [hne, List.isEmpty_iff]),
      tokenizeAux, if_pos hc]
    rfl

theorem renderComps_false_shape (cs : List PathComponent) :
    renderComps false cs = [] ∨
      ∃ d rest2, renderComps false cs = d :: rest2 ∧ isDelim d = true := by
  cases cs with
  | nil => exact Or.inl rfl
  | cons c cs =>
    cases c with
    | name s =>
      exact Or.inr ⟨'.', s.data ++ renderComps false cs, by simp [renderComps, renderComp], by decide⟩
    | idx i =>
      exact Or.inr ⟨'[', (idxStr i ++ [']']) ++ renderComps false cs, by simp [renderComps, renderComp], by decide⟩

theorem tokenize_renderComps (cs : List PathComponent)
    (hg : ∀ c ∈ cs, goodComp c = true) :
    ∀ fst : Bool, tokenize (renderComps fst cs) = tokensOf fst cs := by
  induction cs with
  | nil => intro fst; cases fst <;> rfl
  | cons c cs ih =>
    intro fst
    have hgc : goodComp c = true := hg c (by simp)
    have hgr : ∀ d ∈ cs, goodComp d = true := fun d hd => hg d (by simp [hd])
    cases c with
    | name s =>
      have hgood : s.data ≠ [] ∧ ∀ d ∈ s.data, isDelim d = false := by
        rw [goodComp, goodName, Bool.and_eq_true] at hgc
        constructor
        · intro h
          rw [h] at hgc
          exact absurd hgc.1 (by decide)
        · intro d hd
          have := (List.all_eq_true.mp hgc.2) d hd
          simpa using this
      cases fst with
      | true =>
        show tokenize (s.data ++ renderComps false cs) = _
        rw [tokenize_chunk s.data hgood.1 hgood.2 _ (renderComps_false_shape cs), ih hgr false]
        rfl
      | false =>
        show tokenize (('.' :: s.data) ++ renderComps false cs) = _
        rw [List.cons_append, tokenize_delim_cons '.' (by decide),
          tokenize_chunk s.data hgood.1 hgood.2 _ (renderComps_false_shape cs), ih hgr false]
        rfl
    | idx i =>
      show tokenize (('[' :: (idxStr i ++ [']'])) ++ renderComps false cs) = _
      rw [List.cons_append, tokenize_delim_cons '[' (by decide)]
      rw [List.append_assoc, List.singleton_append,
        tokenize_chunk (idxStr i) (idxStr_ne_nil i) (idxStr_not_delim i)
          (']' :: renderComps false cs) (Or.inr ⟨']', renderComps false cs, rfl, by decide⟩),
        tokenize_delim_cons ']' (by decide), ih hgr false]
      cases fst <;> rfl

theorem string_mk_data (s : String) : String.mk s.data = s := rfl

theorem assemble_tokensOf (cs : List PathComponent)
    (hg : ∀ c ∈ cs, goodComp c = true) :
    ∀ fst : Bool, assemble (tokensOf fst cs) = some cs := by
  induction cs with
  | nil => intro fst; cases fst <;> rfl
  | cons c cs ih =>
    intro fst
    have hgc : goodComp c = true := hg c (by simp)
    have hgr : ∀ d ∈ cs, goodComp d = true := fun d hd => hg d (by simp [hd])
    cases c with
    | name s =>
      have hnd : ∀ d ∈ s.data, isDelim d = false := by
        rw [goodComp, goodName, Bool.and_eq_true] at hgc
        intro d hd
        have := (List.all_eq_true.mp hgc.2) d hd
        simpa using this
      have hne : ∀ d : Char, isDelim d = true → s.data ≠ [d] := by
        intro d hdel he
        have := hnd d (by rw [he]; simp)
        rw [this] at hdel
        exact absurd hdel (by simp)
      have hbody : assemble (s.data :: tokensOf false cs) =
          some (PathComponent.name s :: cs) := by
        rw [assemble.eq_def]
        dsimp only
        rw [if_neg (hne '@' (by decide)), if_neg (hne '.' (by decide)),
          if_neg (hne '[' (by decide))]
        show (assemble (tokensOf false cs)).bind _ = _
        rw [ih hgr false]
        rfl
      cases fst with
      | true => exact hbody
      | false =>
        show assemble (['.'] :: s.data :: tokensOf false cs) = _
        rw [assemble.eq_def]
        dsimp only
        rw [if_neg (by decide), if_pos rfl]
        exact hbody
    | idx i =>
      have hshow : assemble (['['] :: idxStr i :: [']'] :: tokensOf false cs) =
          some (PathComponent.idx i :: cs) := by
        rw [assemble]
        rw [if_neg (by decide), if_neg (by decide), if_pos rfl]
        show (intStrToIndex (idxStr i)).bind _ = _
        rw [intStrToIndex_idxStr]
        show (assemble (tokensOf false cs)).bind _ = _
        rw [ih hgr false]
        rfl
      cases fst <;> exact hshow

/-- C9 (amended): `Path.parse(str(p)) == p` holds for every path whose name
components are nonempty and contain none of the delimiter characters
`@ . [ ]` (index components are unrestricted); it fails for other name
components. -/
theorem c9_theorem (p : Path) (hg : goodPath p = true) :
    Path.parse (Path.render p) = some p := by
  unfold Path.parse Path.render
  obtain ⟨comps⟩ := p
  by_cases hnil : comps = []
  · subst hnil
    rw [if_pos rfl]
    rfl
  · rw [if_neg hnil]
    have hgood : ∀ c ∈ comps, goodComp c = true := by
      intro c hc
      exact (List.all_eq_true.mp hg) c hc
    show (assemble (tokenize (renderComps true comps))).map _ = _
    rw [tokenize_renderComps comps hgood true, assemble_tokensOf comps hgood true]
    rfl

/-- C9 counterexample: the round trip fails for the path with the single name
component `"a.b"`: it renders as `a.b`, which parses back as the two-component
path `a.b`. -/
theorem c9_counterexample :
    Path.render ⟨[PathComponent.name "a.b"]⟩ = "a.b" ∧
    Path.parse "a.b" = some ⟨[PathComponent.name "a", PathComponent.name "b"]⟩ ∧
    (⟨[PathComponent.name "a", PathComponent.name "b"]⟩ : Path) ≠
      ⟨[PathComponent.name "a.b"]⟩ := by
  refine ⟨rfl, rfl, by decide⟩

/-- C9 witness: the amended theorem at the path `a[*].b`. -/
theorem c9_witness :
    goodPath ⟨[PathComponent.name "a", PathComponent.idx (-1), PathComponent.name "b"]⟩ = true ∧
    Path.parse (Path.render ⟨[PathComponent.name "a", PathComponent.idx (-1), PathComponent.name "b"]⟩) =
      some ⟨[PathComponent.name "a", PathComponent.idx (-1), PathComponent.name "b"]⟩ :=
  ⟨by decide, c9_theorem _ (by decide)⟩

end Metametric

namespace Metametric

theorem le_foldl_max (b : ℚ) (l : List ℚ) :
    b ≤ l.foldl max b ∧ ∀ x ∈ l, x ≤ l.foldl max b := by
  induction l generalizing b with
  | nil => simp
  | cons a l ih =>
    refine ⟨le_trans (le_max_left b a) (ih (max b a)).1, ?_⟩
    intro x hx
    rcases List.mem_cons.mp hx with rfl | hx
    · exact le_trans (le_max_right b x) (ih (max b x)).1
    · exact (ih (max b a)).2 x hx

theorem foldl_max_choice (b : ℚ) (l : List ℚ) :
    l.foldl max b = b ∨ l.foldl max b ∈ l := by
  induction l generalizing b with
  | nil => simp
  | cons a l ih =>
    rcases ih (max b a) with h | h
    · rcases max_cases b a with ⟨hm, -⟩ | ⟨hm, -⟩
      · left; rw [List.foldl_cons, h, hm]
      · right; rw [List.foldl_cons, h, hm]; simp
    · right
      simp [List.foldl_cons, h]

theorem argminList_mem (f : ℕ → ℚ) (l : List ℕ) (j : ℕ)
    (h : argminList f l = some j) : j ∈ l := by
  induction l generalizing j with
  | nil => simp [argminList] at h
  | cons a l ih =>
    rw [argminList] at h
    cases ha : argminList f l with
    | none => rw [ha] at h; simp at h; simp [h]
    | some jb =>
      rw [ha] at h
      dsimp only at h
      by_cases hle : f a ≤ f jb
      · rw [if_pos hle] at h
        simp at h
        simp [h]
      · rw [if_neg hle] at h
        simp at h
        subst h
        simp [ih jb ha]

theorem argminList_isSome (f : ℕ → ℚ) (l : List ℕ) (h : l ≠ []) :
    (argminList f l).isSome = true := by
  cases l with
  | nil => exact absurd rfl h
  | cons a l =>
    rw [argminList]
    cases argminList f l with
    | none => rfl
    | some jb => by_cases hle : f a ≤ f jb <;> simp [hle]

theorem argminList_le (f : ℕ → ℚ) (l : List ℕ) (j : ℕ)
    (h : argminList f l = some j) : ∀ x ∈ l, f j ≤ f x := by
  induction l generalizing j with
  | nil => simp [argminList] at h
  | cons a l ih =>
    rw [argminList] at h
    cases ha : argminList f l with
    | none =>
      rw [ha] at h
      dsimp only at h
      simp at h
      subst h
      intro x hx
      have hl : l = [] := by
        cases l with
        | nil => rfl
        | cons b l2 =>
          have hsome := argminList_isSome f (b :: l2) (by simp)
          rw [ha] at hsome
          exact absurd hsome (by simp)
      subst hl
      rcases List.mem_cons.mp hx with rfl | hx
      · exact le_refl _
      · simp at hx
    | some jb =>
      rw [ha] at h
      dsimp only at h
      intro x hx
      rcases List.mem_cons.mp hx with rfl | hx
      · by_cases hle : f x ≤ f jb
        · rw [if_pos hle] at h; simp at h; subst h; exact le_refl _
        · rw [if_neg hle] at h; simp at h; subst h; exact le_of_not_le hle
      · by_cases hle : f a ≤ f jb
        · rw [if_pos hle] at h; simp at h; subst h
          exact le_trans hle (ih jb ha x hx)
        · rw [if_neg hle] at h; simp at h; subst h
          exact ih jb ha x hx

end Metametric

namespace Metametric

theorem bmF_zero (w : ℕ → ℕ → ℚ) (r0 : ℕ) (avail : List ℕ) :
    bmF w r0 0 avail = 0 := rfl

theorem bmF_succ (w : ℕ → ℕ → ℚ) (r0 k : ℕ) (avail : List ℕ) :
    bmF w r0 (k + 1) avail =
      (avail.map (fun j => w r0 j + bmF w (r0 + 1) k (avail.erase j))).foldl max
        (bmF w (r0 + 1) k avail) := rfl

theorem bmF_ge (w : ℕ → ℕ → ℚ) :
    ∀ (k r0 : ℕ) (avail : List ℕ) (M : Finset (ℕ × ℕ)),
      (∀ p ∈ M, r0 ≤ p.1 ∧ p.1 < r0 + k) →
      (∀ p ∈ M, p.2 ∈ avail) →
      (∀ p ∈ M, ∀ q ∈ M, p.1 = q.1 → p = q) →
      (∀ p ∈ M, ∀ q ∈ M, p.2 = q.2 → p = q) →
      mval w M ≤ bmF w r0 k avail := by
  intro k
  induction k with
  | zero =>
    intro r0 avail M hrows _ _ _
    have hM : M = ∅ := by
      rw [Finset.eq_empty_iff_forall_not_mem]
      intro p hp
      have := hrows p hp
      omega
    rw [hM, mval, Finset.sum_empty, bmF_zero]
  | succ k ih =>
    intro r0 avail M hrows hcols hrinj hcinj
    rw [bmF_succ]
    by_cases hat : ∃ j, (r0, j) ∈ M
    · obtain ⟨j, hj⟩ := hat
      have hjav : j ∈ avail := hcols (r0, j) hj
      set M2 := M.erase (r0, j) with hM2
      have hsum : mval w M = w r0 j + mval w M2 := by
        rw [mval, mval, hM2]
        exact (Finset.add_sum_erase M (fun p => w p.1 p.2) hj).symm
      have hle2 : mval w M2 ≤ bmF w (r0 + 1) k (avail.erase j) := by
        apply ih
        · intro p hp
          have hpM := Finset.mem_of_mem_erase hp
          have h1 := hrows p hpM
          have hne : p ≠ (r0, j) := Finset.ne_of_mem_erase hp
          have : p.1 ≠ r0 := by
            intro hr
            exact hne (hrinj p hpM (r0, j) hj (by rw [hr]))
          omega
        · intro p hp
          have hpM := Finset.mem_of_mem_erase hp
          have hne : p ≠ (r0, j) := Finset.ne_of_mem_erase hp
          have hp2 : p.2 ≠ j := by
            intro hc
            exact hne (hcinj p hpM (r0, j) hj hc)
          exact List.mem_erase_of_ne hp2 |>.mpr (hcols p hpM)
        · intro p hp q hq
          exact hrinj p (Finset.mem_of_mem_erase hp) q (Finset.mem_of_mem_erase hq)
        · intro p hp q hq
          exact hcinj p (Finset.mem_of_mem_erase hp) q (Finset.mem_of_mem_erase hq)
      have hmem : w r0 j + bmF w (r0 + 1) k (avail.erase j) ∈
          avail.map (fun j => w r0 j + bmF w (r0 + 1) k (avail.erase j)) :=
        List.mem_map.mpr ⟨j, hjav, rfl⟩
      calc mval w M = w r0 j + mval w M2 := hsum
        _ ≤ w r0 j + bmF w (r0 + 1) k (avail.erase j) := by linarith
        _ ≤ _ := (le_foldl_max _ _).2 _ hmem
    · have hle2 : mval w M ≤ bmF w (r0 + 1) k avail := by
        apply ih
        · intro p hp
          have h1 := hrows p hp
          have : p.1 ≠ r0 := by
            intro hr
            exact hat ⟨p.2, by rw [← hr]; exact hp⟩
          omega
        · exact hcols
        · exact hrinj
        · exact hcinj
      exact le_trans hle2 (le_foldl_max _ _).1

theorem bmF_achieved (w : ℕ → ℕ → ℚ) :
    ∀ (k r0 : ℕ) (avail : List ℕ), avail.Nodup →
      ∃ M : Finset (ℕ × ℕ),
        (∀ p ∈ M, r0 ≤ p.1 ∧ p.1 < r0 + k) ∧
        (∀ p ∈ M, p.2 ∈ avail) ∧
        (∀ p ∈ M, ∀ q ∈ M, p.1 = q.1 → p = q) ∧
        (∀ p ∈ M, ∀ q ∈ M, p.2 = q.2 → p = q) ∧
        mval w M = bmF w r0 k avail := by
  intro k
  induction k with
  | zero =>
    intro r0 avail _
    exact ⟨∅, by simp, by simp, by simp, by simp, by rw [mval, Finset.sum_empty, bmF_zero]⟩
  | succ k ih =>
    intro r0 avail hnd
    rw [bmF_succ]
    rcases foldl_max_choice (bmF w (r0 + 1) k avail)
        (avail.map (fun j => w r0 j + bmF w (r0 + 1) k (avail.erase j))) with h | h
    · obtain ⟨M, h1, h2, h3, h4, h5⟩ := ih (r0 + 1) avail hnd
      exact ⟨M, fun p hp => by have := h1 p hp; omega, h2, h3, h4, by rw [h5, h]⟩
    · obtain ⟨j, hjav, hval⟩ := List.mem_map.mp h
      obtain ⟨M2, h1, h2, h3, h4, h5⟩ := ih (r0 + 1) (avail.erase j) (hnd.erase j)
      have hnotmem : (r0, j) ∉ M2 := by
        intro hc
        have := h1 _ hc
        simp at this
      refine ⟨insert (r0, j) M2, ?_, ?_, ?_, ?_, ?_⟩
      · intro p hp
        rcases Finset.mem_insert.mp hp with rfl | hp
        · exact ⟨le_refl _, by omega⟩
        · have := h1 p hp
          omega
      · intro p hp
        rcases Finset.mem_insert.mp hp with rfl | hp
        · exact hjav
        · exact List.mem_of_mem_erase (h2 p hp)
      · intro p hp q hq hpq
        rcases Finset.mem_insert.mp hp with rfl | hp <;>
          rcases Finset.mem_insert.mp hq with rfl | hq
        · rfl
        · exact absurd (h1 q hq).1 (by simp at hpq ⊢; omega)
        · exact absurd (h1 p hp).1 (by simp at hpq ⊢; omega)
        · exact h3 p hp q hq hpq
      · intro p hp q hq hpq
        rcases Finset.mem_insert.mp hp with rfl | hp <;>
          rcases Finset.mem_insert.mp hq with rfl | hq
        · rfl
        · have hq2 : q.2 ≠ j := ((hnd.mem_erase_iff).mp (h2 q hq)).1
          exact absurd hpq.symm hq2
        · have hp2 : p.2 ≠ j := ((hnd.mem_erase_iff).mp (h2 p hp)).1
          exact absurd hpq hp2
        · exact h4 p hp q hq hpq
      · rw [mval, Finset.sum_insert hnotmem, ← hval]
        rw [mval] at h5
        rw [h5]

end Metametric

namespace Metametric

theorem bmF_congr (w w2 : ℕ → ℕ → ℚ) :
    ∀ (k r0 r02 : ℕ), (∀ i < k, ∀ j, w (r0 + i) j = w2 (r02 + i) j) →
      ∀ avail, bmF w r0 k avail = bmF w2 r02 k avail := by
  intro k
  induction k with
  | zero => intro r0 r02 _ avail; rw [bmF_zero, bmF_zero]
  | succ k ih =>
    intro r0 r02 hw avail
    rw [bmF_succ, bmF_succ]
    have hhead : ∀ j, w r0 j = w2 r02 j := by
      intro j
      have := hw 0 (by omega) j
      simpa using this
    have htail : ∀ avail2, bmF w (r0 + 1) k avail2 = bmF w2 (r02 + 1) k avail2 := by
      intro avail2
      apply ih
      intro i hi j
      have := hw (i + 1) (by omega) j
      rw [show r0 + (i + 1) = r0 + 1 + i by omega, show r02 + (i + 1) = r02 + 1 + i by omega] at this
      exact this
    rw [htail]
    congr 1
    apply List.map_congr_left
    intro j _
    rw [hhead, htail]

theorem bruteMaxAux_eq_bmF :
    ∀ (m : List (List ℚ)) (avail : List ℕ),
      bruteMaxAux m avail = bmF (matEntry m) 0 m.length avail := by
  intro m
  induction m with
  | nil => intro avail; rw [bruteMaxAux, List.length_nil, bmF_zero]
  | cons r rs ih =>
    intro avail
    rw [bruteMaxAux, List.length_cons, bmF_succ]
    have hshift : ∀ avail2, bmF (matEntry rs) 0 rs.length avail2 =
        bmF (matEntry (r :: rs)) 1 rs.length avail2 := by
      intro avail2
      apply bmF_congr
      intro i _ j
      rw [matEntry, matEntry, Nat.add_comm 1 i]
      simp
    have hhead : ∀ j, r.getD j 0 = matEntry (r :: rs) 0 j := by
      intro j
      rw [matEntry]
      simp
    rw [← hshift, ← ih avail]
    congr 1
    apply List.map_congr_left
    intro j _
    rw [hhead, ← hshift, ← ih (avail.erase j)]

/-- The common optimum: any two quantities that both bound and are achieved
by matchings over the same constraint sets are equal. -/
theorem bmF_swap (w : ℕ → ℕ → ℚ) (nx ny : ℕ) :
    bmF w 0 nx (List.range ny) = bmF (fun i j => w j i) 0 ny (List.range nx) := by
  apply le_antisymm
  · obtain ⟨M, h1, h2, h3, h4, h5⟩ := bmF_achieved w nx 0 (List.range ny) (List.nodup_range _)
    rw [← h5]
    have himg := bmF_ge (fun i j => w j i) ny 0 (List.range nx) (M.image Prod.swap)
    have hswap : mval w M = mval (fun i j => w j i) (M.image Prod.swap) := by
      rw [mval, mval, Finset.sum_image]
      · rfl
      · intro p _ q _ hpq
        exact Prod.swap_injective hpq
    rw [hswap]
    apply himg
    · intro p hp
      obtain ⟨q, hq, rfl⟩ := Finset.mem_image.mp hp
      have hc := List.mem_range.mp (h2 q hq)
      exact ⟨Nat.zero_le _, by simpa using hc⟩
    · intro p hp
      obtain ⟨q, hq, rfl⟩ := Finset.mem_image.mp hp
      exact List.mem_range.mpr (by simpa using (h1 q hq).2)
    · intro p hp q hq hpq
      obtain ⟨p2, hp2, rfl⟩ := Finset.mem_image.mp hp
      obtain ⟨q2, hq2, rfl⟩ := Finset.mem_image.mp hq
      have := h4 p2 hp2 q2 hq2 (by simpa using hpq)
      rw [this]
    · intro p hp q hq hpq
      obtain ⟨p2, hp2, rfl⟩ := Finset.mem_image.mp hp
      obtain ⟨q2, hq2, rfl⟩ := Finset.mem_image.mp hq
      have := h3 p2 hp2 q2 hq2 (by simpa using hpq)
      rw [this]
  · obtain ⟨M, h1, h2, h3, h4, h5⟩ := bmF_achieved (fun i j => w j i) ny 0 (List.range nx) (List.nodup_range _)
    rw [← h5]
    have himg := bmF_ge w nx 0 (List.range ny) (M.image Prod.swap)
    have hswap : mval (fun i j => w j i) M = mval w (M.image Prod.swap) := by
      rw [mval, mval, Finset.sum_image]
      · rfl
      · intro p _ q _ hpq
        exact Prod.swap_injective hpq
    rw [hswap]
    apply himg
    · intro p hp
      obtain ⟨q, hq, rfl⟩ := Finset.mem_image.mp hp
      have hc := List.mem_range.mp (h2 q hq)
      exact ⟨Nat.zero_le _, by simpa using hc⟩
    · intro p hp
      obtain ⟨q, hq, rfl⟩ := Finset.mem_image.mp hp
      exact List.mem_range.mpr (by simpa using (h1 q hq).2)
    · intro p hp q hq hpq
      obtain ⟨p2, hp2, rfl⟩ := Finset.mem_image.mp hp
      obtain ⟨q2, hq2, rfl⟩ := Finset.mem_image.mp hq
      have := h4 p2 hp2 q2 hq2 (by simpa using hpq)
      rw [this]
    · intro p hp q hq hpq
      obtain ⟨p2, hp2, rfl⟩ := Finset.mem_image.mp hp
      obtain ⟨q2, hq2, rfl⟩ := Finset.mem_image.mp hq
      have := h3 p2 hp2 q2 hq2 (by simpa using hpq)
      rw [this]

end Metametric

namespace Metametric


theorem cbar_applyDelta (w : ℕ → ℕ → ℚ) (i ny : ℕ) (used : List ℕ) (delta : ℚ)
    (hs : HState) (minv : ℕ → ℚ) (r j : ℕ) :
    cbar w (applyDelta i ny used delta hs minv).1 r j =
      cbar w hs r j - (if TreeRow i hs used r then delta else 0) +
        (if j ∈ used then delta else 0) := by
  simp only [cbar, applyDelta, TreeRow]
  by_cases hr : r = i ∨ ∃ jm ∈ used, hs.pred jm = some r <;>
    by_cases hj : j ∈ used <;>
    simp [hr, hj] <;> ring

theorem applyDelta_minv (i ny : ℕ) (used : List ℕ) (delta : ℚ)
    (hs : HState) (minv : ℕ → ℚ) (j : ℕ) (hjy : j < ny) (hju : j ∉ used) :
    (applyDelta i ny used delta hs minv).2 j = minv j - delta := by
  rw [applyDelta]
  dsimp only
  rw [if_pos ⟨hjy, hju⟩]

theorem applyDelta_pred (i ny : ℕ) (used : List ℕ) (delta : ℚ)
    (hs : HState) (minv : ℕ → ℚ) :
    (applyDelta i ny used delta hs minv).1.pred = hs.pred := rfl

end Metametric

namespace Metametric

theorem nodup_bounded_length (l : List ℕ) (n : ℕ) (hnd : l.Nodup)
    (hlt : ∀ x ∈ l, x < n) : l.length ≤ n := by
  have hsub : l.toFinset ⊆ Finset.range n := by
    intro x hx
    exact Finset.mem_range.mpr (hlt x (List.mem_toFinset.mp hx))
  have := Finset.card_le_card hsub
  rw [List.toFinset_card_of_nodup hnd] at this
  simpa using this

theorem used_length_le_rows {w : ℕ → ℕ → ℚ} {ny i : ℕ} {st : TreeSt}
    (inv : TInv w ny i st) : st.used.length ≤ i := by
  classical
  set f : ℕ → ℕ := fun j => (st.hs.pred j).getD 0 with hf
  have hmapnd : (st.used.map f).Nodup := by
    rw [List.nodup_map_iff_inj_on inv.usedNd]
    intro j hj j2 hj2 hfe
    obtain ⟨-, hs1⟩ := inv.usedOk j hj
    obtain ⟨-, hs2⟩ := inv.usedOk j2 hj2
    obtain ⟨r1, hr1⟩ := Option.isSome_iff_exists.mp hs1
    obtain ⟨r2, hr2⟩ := Option.isSome_iff_exists.mp hs2
    rw [hf] at hfe
    simp only [hr1, hr2, Option.getD_some] at hfe
    subst hfe
    exact inv.predInj j j2 r1 hr1 hr2
  have hlt : ∀ x ∈ st.used.map f, x < i := by
    intro x hx
    obtain ⟨j, hj, rfl⟩ := List.mem_map.mp hx
    obtain ⟨-, hs1⟩ := inv.usedOk j hj
    obtain ⟨r1, hr1⟩ := Option.isSome_iff_exists.mp hs1
    rw [hf]
    simp only [hr1, Option.getD_some]
    exact (inv.predLT j r1 hr1).2
  have := nodup_bounded_length (st.used.map f) i hmapnd hlt
  simpa using this

theorem unused_filter_ne_nil (ny : ℕ) (used : List ℕ) (hnd : used.Nodup)
    (hlt : ∀ x ∈ used, x < ny) (hlen : used.length < ny) :
    (List.range ny).filter (fun j => j ∉ used) ≠ [] := by
  intro hc
  have hall : ∀ j < ny, j ∈ used := by
    intro j hj
    by_contra hnot
    have : j ∈ (List.range ny).filter (fun j => j ∉ used) := by
      rw [List.mem_filter]
      exact ⟨List.mem_range.mpr hj, by simpa using hnot⟩
    rw [hc] at this
    simp at this
  have hsub : Finset.range ny ⊆ used.toFinset := by
    intro x hx
    exact List.mem_toFinset.mpr (hall x (Finset.mem_range.mp hx))
  have := Finset.card_le_card hsub
  rw [List.toFinset_card_of_nodup hnd] at this
  simp at this
  omega

end Metametric

namespace Metametric

theorem cbar_eq_def (w : ℕ → ℕ → ℚ) (hs : HState) (r j : ℕ) :
    -(w r j) - hs.u r - hs.v j = cbar w hs r j := rfl

theorem scanMinv_fst (w : ℕ → ℕ → ℚ) (ny i0 : ℕ) (st : TreeSt) (j : ℕ) :
    (scanMinv w ny i0 st).1 j =
      if j < ny ∧ j ∉ st.used ∧ cbar w st.hs i0 j < st.minv j
      then cbar w st.hs i0 j else st.minv j := rfl

theorem scanMinv_snd (w : ℕ → ℕ → ℚ) (ny i0 : ℕ) (st : TreeSt) (j : ℕ) :
    (scanMinv w ny i0 st).2 j =
      if j < ny ∧ j ∉ st.used ∧ cbar w st.hs i0 j < st.minv j
      then some st.j0 else st.way j := rfl

theorem innerLoop_spec (w : ℕ → ℕ → ℚ) (ny i : ℕ) (hiy : i < ny) :
    ∀ (fuel : ℕ) (st : TreeSt), TInv w ny i st → i + 1 ≤ st.used.length + fuel →
      ∃ hs2 way2 j1, innerLoop w i ny fuel st = some (hs2, way2, j1) ∧
        ∃ used2, EInv w ny i hs2 way2 j1 used2 := by
  intro fuel
  induction fuel with
  | zero =>
    intro st inv hfuel
    have := used_length_le_rows inv
    omega
  | succ fuel ih =>
    intro st inv hfuel
    -- the frontier row
    obtain ⟨-, hj0some⟩ := inv.usedOk st.j0 inv.j0mem
    obtain ⟨r0, hr0⟩ := Option.isSome_iff_exists.mp hj0some
    have hi0 : frontierRow i st.hs (some st.j0) = r0 := by
      rw [frontierRow, hr0]
      rfl
    have hr0lt : r0 < i := (inv.predLT st.j0 r0 hr0).2
    set i0 := frontierRow i st.hs (some st.j0) with hi0def
    set minv2 := (scanMinv w ny i0 st).1 with hminv2
    set way2 := (scanMinv w ny i0 st).2 with hway2
    -- facts about the improved minv
    have hm2le : ∀ j, j < ny → j ∉ st.used →
        minv2 j ≤ st.minv j ∧ minv2 j ≤ cbar w st.hs i0 j := by
      intro j hjy hju
      rw [hminv2, scanMinv_fst]
      by_cases hc : cbar w st.hs i0 j < st.minv j
      · rw [if_pos ⟨hjy, hju, hc⟩]
        exact ⟨le_of_lt hc, le_refl _⟩
      · rw [if_neg (by intro h3; exact hc h3.2.2)]
        exact ⟨le_refl _, le_of_not_lt hc⟩
    have hm2used : ∀ j ∈ st.used, minv2 j = st.minv j := by
      intro j hj
      rw [hminv2, scanMinv_fst, if_neg (by intro h3; exact h3.2.1 hj)]
    have hw2used : ∀ j ∈ st.used, way2 j = st.way j := by
      intro j hj
      rw [hway2, scanMinv_snd, if_neg (by intro h3; exact h3.2.1 hj)]
    -- scan coverage after improvement
    have hscan2 : ∀ j, j < ny → j ∉ st.used →
        minv2 j ≤ cbar w st.hs i j ∧
          ∀ j2 ∈ st.used, minv2 j ≤ cbar w st.hs ((st.hs.pred j2).getD i) j := by
      intro j hjy hju
      obtain ⟨hle1, hle2⟩ := hm2le j hjy hju
      obtain ⟨hs1, hs2⟩ := inv.scanLe j hjy hju
      refine ⟨le_trans hle1 hs1, ?_⟩
      intro j2 hj2
      by_cases hj2j0 : j2 = st.j0
      · subst hj2j0
        rw [hr0, Option.getD_some, ← hi0]
        exact hle2
      · exact le_trans hle1 (hs2 j2 hj2 hj2j0)
    -- way after improvement
    have hway2eq : ∀ j, j < ny → j ∉ st.used →
        minv2 j = cbar w st.hs (frontierRow i st.hs (way2 j)) j := by
      intro j hjy hju
      rw [hminv2, hway2, scanMinv_fst, scanMinv_snd]
      by_cases hc : cbar w st.hs i0 j < st.minv j
      · rw [if_pos ⟨hjy, hju, hc⟩, if_pos ⟨hjy, hju, hc⟩]
      · rw [if_neg (by intro h3; exact hc h3.2.2), if_neg (by intro h3; exact hc h3.2.2)]
        exact inv.wayEq j hjy hju
    have hway2mem : ∀ j, j < ny → j ∉ st.used →
        way2 j = none ∨ ∃ jp ∈ st.used, way2 j = some jp := by
      intro j hjy hju
      rw [hway2, scanMinv_snd]
      by_cases hc : cbar w st.hs i0 j < st.minv j
      · rw [if_pos ⟨hjy, hju, hc⟩]
        exact Or.inr ⟨st.j0, inv.j0mem, rfl⟩
      · rw [if_neg (by intro h3; exact hc h3.2.2)]
        exact inv.wayMem j hjy hju
    have hm2pos : ∀ j, j < ny → j ∉ st.used → 0 ≤ minv2 j := by
      intro j hjy hju
      rw [hminv2, scanMinv_fst]
      by_cases hc : cbar w st.hs i0 j < st.minv j
      · rw [if_pos ⟨hjy, hju, hc⟩, hi0]
        exact inv.feas r0 hr0lt j hjy
      · rw [if_neg (by intro h3; exact hc h3.2.2)]
        exact inv.minvPos j hjy hju
    -- the argmin succeeds
    have hlen : st.used.length ≤ i := used_length_le_rows inv
    have hne : (List.range ny).filter (fun j => j ∉ st.used) ≠ [] :=
      unused_filter_ne_nil ny st.used inv.usedNd (fun x hx => (inv.usedOk x hx).1)
        (by omega)
    obtain ⟨j1, hj1⟩ := Option.isSome_iff_exists.mp (argminList_isSome minv2 _ hne)
    have hj1mem := argminList_mem minv2 _ j1 hj1
    rw [List.mem_filter] at hj1mem
    have hj1y : j1 < ny := List.mem_range.mp hj1mem.1
    have hj1u : j1 ∉ st.used := by simpa using hj1mem.2
    have hdle : ∀ j, j < ny → j ∉ st.used → minv2 j1 ≤ minv2 j := by
      intro j hjy hju
      exact argminList_le minv2 _ j1 hj1 j
        (List.mem_filter.mpr ⟨List.mem_range.mpr hjy, by simpa using hju⟩)
    set delta := minv2 j1 with hdelta
    have hdpos : 0 ≤ delta := hm2pos j1 hj1y hj1u
    set hs2 := (applyDelta i ny st.used delta st.hs minv2).1 with hhs2
    set minv3 := (applyDelta i ny st.used delta st.hs minv2).2 with hminv3
    have hpred2 : hs2.pred = st.hs.pred := rfl
    -- how cbar changes
    have hcb : ∀ r j, cbar w hs2 r j =
        cbar w st.hs r j - (if TreeRow i st.hs st.used r then delta else 0) +
          (if j ∈ st.used then delta else 0) := by
      intro r j
      rw [hhs2]
      exact cbar_applyDelta w i ny st.used delta st.hs minv2 r j
    have hTRi : TreeRow i st.hs st.used i := Or.inl rfl
    have hTRr : ∀ j2 ∈ st.used, ∀ r, st.hs.pred j2 = some r → TreeRow i st.hs st.used r :=
      fun j2 hj2 r hr => Or.inr ⟨j2, hj2, hr⟩
    -- feasibility of processed rows after the update
    have hfeas2 : ∀ r, r < i → ∀ j, j < ny → 0 ≤ cbar w hs2 r j := by
      intro r hr j hjy
      rw [hcb]
      by_cases hTR : TreeRow i st.hs st.used r <;> by_cases hju : j ∈ st.used
      · rw [if_pos hTR, if_pos hju]; have := inv.feas r hr j hjy; linarith
      · rw [if_pos hTR, if_neg hju]
        rcases hTR with rfl | ⟨j2, hj2, hr2⟩
        · omega
        · have hcov := (hscan2 j hjy hju).2 j2 hj2
          rw [hr2, Option.getD_some] at hcov
          have := hdle j hjy hju
          linarith
      · rw [if_neg hTR, if_pos hju]; have := inv.feas r hr j hjy; linarith
      · rw [if_neg hTR, if_neg hju]; have := inv.feas r hr j hjy; linarith
    have hfeasI2 : ∀ j, j < ny → 0 ≤ cbar w hs2 i j := by
      intro j hjy
      rw [hcb]
      by_cases hju : j ∈ st.used
      · rw [if_pos hTRi, if_pos hju]; have := inv.feasI j hjy; linarith
      · rw [if_pos hTRi, if_neg hju]
        have hcov := (hscan2 j hjy hju).1
        have := hdle j hjy hju
        linarith
    have htight2 : ∀ j r, hs2.pred j = some r → cbar w hs2 r j = 0 := by
      intro j r hjr
      rw [hpred2] at hjr
      rw [hcb]
      by_cases hju : j ∈ st.used
      · rw [if_pos (hTRr j hju r hjr), if_pos hju]
        have := inv.tight j r hjr
        linarith
      · have hnTR : ¬TreeRow i st.hs st.used r := by
          intro hTR
          rcases hTR with rfl | ⟨j2, hj2, hr2⟩
          · exact absurd (inv.predLT j r hjr).2 (by omega)
          · exact hju (inv.predInj j2 j r hr2 hjr ▸ hj2)
        rw [if_neg hnTR, if_neg hju]
        have := inv.tight j r hjr
        linarith
    have hvUnm2 : ∀ j, j < ny → hs2.pred j = none → hs2.v j = 0 := by
      intro j hjy hjn
      rw [hpred2] at hjn
      have hju : j ∉ st.used := by
        intro hc
        obtain ⟨-, hsome⟩ := inv.usedOk j hc
        rw [hjn] at hsome
        exact absurd hsome (by simp)
      show (applyDelta i ny st.used delta st.hs minv2).1.v j = 0
      rw [applyDelta]
      dsimp only
      rw [if_neg hju]
      exact inv.vUnm j hjy hjn
    have hvNonpos2 : ∀ j, j < ny → hs2.v j ≤ 0 := by
      intro j hjy
      show (applyDelta i ny st.used delta st.hs minv2).1.v j ≤ 0
      rw [applyDelta]
      dsimp only
      by_cases hju : j ∈ st.used
      · rw [if_pos hju]
        have := inv.vNonpos j hjy
        linarith
      · rw [if_neg hju]
        exact inv.vNonpos j hjy
    -- tightness of the frontier edges after the update
    have hfrontier2 : ∀ wy, (wy = none ∨ ∃ jp ∈ st.used, wy = some jp) →
        frontierRow i hs2 wy = frontierRow i st.hs wy ∧
          TreeRow i st.hs st.used (frontierRow i st.hs wy) := by
      intro wy hwy
      rcases hwy with rfl | ⟨jp, hjp, rfl⟩
      · exact ⟨rfl, hTRi⟩
      · constructor
        · rw [frontierRow, frontierRow, hpred2]
        · obtain ⟨-, hsome⟩ := inv.usedOk jp hjp
          obtain ⟨rp, hrp⟩ := Option.isSome_iff_exists.mp hsome
          rw [frontierRow, hrp, Option.getD_some]
          exact hTRr jp hjp rp hrp
    have husedTight2 : ∀ j ∈ st.used, cbar w hs2 (frontierRow i hs2 (way2 j)) j = 0 := by
      intro j hj
      rw [hw2used j hj]
      have hwymem : st.way j = none ∨ ∃ jp ∈ st.used, st.way j = some jp := by
        obtain ⟨⟨k, hk⟩, hkeq⟩ := List.mem_iff_get.mp hj
        rcases inv.usedWayOrder k hk with h | ⟨k2, hk2, -, h⟩
        · rw [hkeq] at h
          exact Or.inl h
        · rw [hkeq] at h
          exact Or.inr ⟨st.used.get ⟨k2, hk2⟩, List.get_mem _ _ _, h⟩
      obtain ⟨hfr, hTR⟩ := hfrontier2 (st.way j) hwymem
      rw [hfr, hcb, if_pos hTR, if_pos hj]
      have := inv.usedTight j hj
      linarith
    have hj1tight2 : cbar w hs2 (frontierRow i hs2 (way2 j1)) j1 = 0 := by
      obtain ⟨hfr, hTR⟩ := hfrontier2 (way2 j1) (hway2mem j1 hj1y hj1u)
      rw [hfr, hcb, if_pos hTR, if_neg hj1u]
      have := hway2eq j1 hj1y hj1u
      rw [← hdelta] at this
      linarith [this]
    -- branch on whether j1 is matched
    rw [innerLoop]
    cases hj1p : st.hs.pred j1 with
    | none =>
      refine ⟨hs2, way2, j1, ?_, st.used, ?_⟩
      · rw [← hi0def, ← hminv2, ← hway2, hj1]
        dsimp only
        rw [hj1p]
      · exact {
          predLT := fun j r h => inv.predLT j r (hpred2 ▸ h)
          predInj := fun j j2 r h h2 => inv.predInj j j2 r (hpred2 ▸ h) (hpred2 ▸ h2)
          predOnto := fun r hr => by
            obtain ⟨j, hjy, hjp⟩ := inv.predOnto r hr
            exact ⟨j, hjy, hpred2 ▸ hjp⟩
          feas := hfeas2
          tight := htight2
          vUnm := hvUnm2
          vNonpos := hvNonpos2
          feasI := hfeasI2
          j1lt := hj1y
          j1unm := hpred2 ▸ hj1p
          j1notUsed := hj1u
          j1tight := hj1tight2
          j1way := by
            rcases hway2mem j1 hj1y hj1u with h | ⟨jp, hjp, h⟩
            · exact Or.inl h
            · exact Or.inr ⟨jp, hjp, h⟩
          usedNd := inv.usedNd
          usedOk := fun j hj => ⟨(inv.usedOk j hj).1, by
            rw [hpred2]; exact (inv.usedOk j hj).2⟩
          usedTight := husedTight2
          usedWayOrder := fun k hk => by
            have := inv.usedWayOrder k hk
            rw [← hw2used (st.used.get ⟨k, hk⟩) (List.get_mem _ _ _)] at this
            exact this }
    | some rm =>
      -- the tree grows; re-establish the inner invariant and recurse
      have hinv2 : TInv w ny i ⟨hs2, minv3, way2, st.used ++ [j1], j1⟩ := by
        refine {
          predLT := fun j r h => inv.predLT j r (hpred2 ▸ h)
          predInj := fun j j2 r h h2 => inv.predInj j j2 r (hpred2 ▸ h) (hpred2 ▸ h2)
          predOnto := fun r hr => by
            obtain ⟨j, hjy, hjp⟩ := inv.predOnto r hr
            exact ⟨j, hjy, hpred2 ▸ hjp⟩
          feas := hfeas2
          tight := htight2
          vUnm := hvUnm2
          vNonpos := hvNonpos2
          feasI := hfeasI2
          usedNd := by
            rw [List.nodup_append]
            exact ⟨inv.usedNd, List.nodup_singleton j1, by simpa using hj1u⟩
          usedOk := ?_
          j0mem := by simp
          scanLe := ?_
          wayEq := ?_
          wayMem := ?_
          minvPos := ?_
          usedTight := ?_
          usedWayOrder := ?_ }
        · intro j hj
          rcases List.mem_append.mp hj with hj | hj
          · exact ⟨(inv.usedOk j hj).1, by rw [hpred2]; exact (inv.usedOk j hj).2⟩
          · rw [List.mem_singleton] at hj
            subst hj
            exact ⟨hj1y, by rw [hpred2, hj1p]; rfl⟩
        · -- scanLe
          intro j hjy hju
          dsimp only at hju ⊢
          rw [List.mem_append] at hju
          push_neg at hju
          obtain ⟨hju1, hju2⟩ := hju
          rw [List.mem_singleton] at hju2
          have hm3 : minv3 j = minv2 j - delta := by
            rw [hminv3]
            exact applyDelta_minv i ny st.used delta st.hs minv2 j hjy hju1
          constructor
          · rw [hm3, hcb, if_pos hTRi, if_neg hju1]
            have := (hscan2 j hjy hju1).1
            linarith
          · intro j2 hj2 hj2ne
            rcases List.mem_append.mp hj2 with hj2 | hj2
            · obtain ⟨-, hsome⟩ := inv.usedOk j2 hj2
              obtain ⟨r2, hr2⟩ := Option.isSome_iff_exists.mp hsome
              rw [hpred2, hr2, Option.getD_some]
              have hcov := (hscan2 j hjy hju1).2 j2 hj2
              rw [hr2, Option.getD_some] at hcov
              rw [hm3, hcb, if_pos (hTRr j2 hj2 r2 hr2), if_neg hju1]
              linarith
            · rw [List.mem_singleton] at hj2
              exact absurd hj2 hj2ne
        · -- wayEq
          intro j hjy hju
          dsimp only at hju ⊢
          rw [List.mem_append] at hju
          push_neg at hju
          obtain ⟨hju1, hju2⟩ := hju
          have hm3 : minv3 j = minv2 j - delta := by
            rw [hminv3]
            exact applyDelta_minv i ny st.used delta st.hs minv2 j hjy hju1
          obtain ⟨hfr, hTR⟩ := hfrontier2 (way2 j) (hway2mem j hjy hju1)
          rw [hm3, hfr, hcb, if_pos hTR, if_neg hju1]
          have := hway2eq j hjy hju1
          linarith
        · -- wayMem
          intro j hjy hju
          dsimp only at hju ⊢
          rw [List.mem_append] at hju
          push_neg at hju
          rcases hway2mem j hjy hju.1 with h | ⟨jp, hjp, h⟩
          · exact Or.inl h
          · exact Or.inr ⟨jp, List.mem_append.mpr (Or.inl hjp), h⟩
        · -- minvPos
          intro j hjy hju
          dsimp only at hju ⊢
          rw [List.mem_append] at hju
          push_neg at hju
          have hm3 : minv3 j = minv2 j - delta := by
            rw [hminv3]
            exact applyDelta_minv i ny st.used delta st.hs minv2 j hjy hju.1
          rw [hm3]
          have := hdle j hjy hju.1
          linarith
        · -- usedTight
          intro j hj
          dsimp only at hj ⊢
          rcases List.mem_append.mp hj with hj | hj
          · exact husedTight2 j hj
          · rw [List.mem_singleton] at hj
            subst hj
            exact hj1tight2
        · -- usedWayOrder
          intro k hk
          dsimp only at hk ⊢
          have hklen : k < st.used.length ∨ k = st.used.length := by
            rw [List.length_append, List.length_singleton] at hk
            omega
          rcases hklen with hk2 | hk2
          · have hget : (st.used ++ [j1]).get ⟨k, hk⟩ = st.used.get ⟨k, hk2⟩ := by
              rw [List.get_append_left]
            rw [hget, hw2used (st.used.get ⟨k, hk2⟩) (List.get_mem _ _ _)]
            rcases inv.usedWayOrder k hk2 with h | ⟨k3, hk3, hlt3, h⟩
            · exact Or.inl h
            · refine Or.inr ⟨k3, by rw [List.length_append, List.length_singleton]; omega,
                hlt3, ?_⟩
              rw [h]
              congr 1
              rw [List.get_append_left]
          · -- the appended column j1
            have hget : (st.used ++ [j1]).get ⟨k, hk⟩ = j1 := by
              subst hk2
              simp
            rw [hget]
            rcases hway2mem j1 hj1y hj1u with h | ⟨jp, hjp, h⟩
            · exact Or.inl h
            · obtain ⟨⟨k3, hk3⟩, hk3eq⟩ := List.mem_iff_get.mp hjp
              refine Or.inr ⟨k3, by rw [List.length_append, List.length_singleton]; omega,
                by omega, ?_⟩
              rw [h]
              congr 1
              rw [List.get_append_left]
              exact hk3eq.symm
      have hrec := ih ⟨hs2, minv3, way2, st.used ++ [j1], j1⟩ hinv2
        (by
          show i + 1 ≤ (st.used ++ [j1]).length + fuel
          rw [List.length_append, List.length_singleton]
          omega)
      obtain ⟨hs3, way3, j3, hrun, used3, hE⟩ := hrec
      refine ⟨hs3, way3, j3, ?_, used3, hE⟩
      rw [← hi0def, ← hminv2, ← hway2, hj1]
      dsimp only
      rw [hj1p]
      exact hrun

theorem initTree_spec (w : ℕ → ℕ → ℚ) (ny i : ℕ) (hiy : i < ny) (hs : HState)
    (inv : OInv w ny i hs) :
    ∃ hs2 way2 j1, initTree w i ny hs = some (hs2, way2, j1) ∧
      ∃ used2, EInv w ny i hs2 way2 j1 used2 := by
  classical
  set cur : ℕ → ℚ := fun j => -(w i j) - hs.u i - hs.v j with hcur
  have hcurb : ∀ j, cur j = cbar w hs i j := fun _ => rfl
  have hne : (List.range ny).filter (fun j => j ∉ ([] : List ℕ)) ≠ [] :=
    unused_filter_ne_nil ny [] List.nodup_nil (by simp)
      (by simp only [List.length_nil]; omega)
  obtain ⟨j1, hj1⟩ := Option.isSome_iff_exists.mp (argminList_isSome cur _ hne)
  have hj1mem := argminList_mem cur _ j1 hj1
  rw [List.mem_filter] at hj1mem
  have hj1y : j1 < ny := List.mem_range.mp hj1mem.1
  have hdle : ∀ j, j < ny → cur j1 ≤ cur j := fun j hjy =>
    argminList_le cur _ j1 hj1 j
      (List.mem_filter.mpr ⟨List.mem_range.mpr hjy, by simp⟩)
  set delta := cur j1 with hdelta
  set way2n : ℕ → Option ℕ := fun _ => none with hway2n
  set hs2 := (applyDelta i ny [] delta hs cur).1 with hhs2
  set minv3 := (applyDelta i ny [] delta hs cur).2 with hminv3
  have hpred2 : hs2.pred = hs.pred := rfl
  have hv2 : hs2.v = hs.v := by
    funext j
    rw [hhs2, applyDelta]
    dsimp only
    rw [if_neg (List.not_mem_nil j)]
  have hTRiff : ∀ r, TreeRow i hs [] r ↔ r = i := by
    intro r
    constructor
    · rintro (rfl | ⟨j, hj, -⟩)
      · rfl
      · simp at hj
    · rintro rfl
      exact Or.inl rfl
  have hcb : ∀ r j, cbar w hs2 r j =
      cbar w hs r j - (if r = i then delta else 0) := by
    intro r j
    rw [hhs2, cbar_applyDelta w i ny [] delta hs cur r j]
    by_cases hr : r = i
    · rw [if_pos ((hTRiff r).mpr hr), if_pos hr, if_neg (List.not_mem_nil j)]
      ring
    · rw [if_neg (fun h => hr ((hTRiff r).mp h)), if_neg hr,
        if_neg (List.not_mem_nil j)]
      ring
  have hm3 : ∀ j, j < ny → minv3 j = cur j - delta := by
    intro j hjy
    rw [hminv3]
    exact applyDelta_minv i ny [] delta hs cur j hjy (List.not_mem_nil j)
  have hfeas2 : ∀ r, r < i → ∀ j, j < ny → 0 ≤ cbar w hs2 r j := by
    intro r hr j hjy
    rw [hcb, if_neg (by omega)]
    have := inv.feas r hr j hjy
    linarith
  have hfeasI2 : ∀ j, j < ny → 0 ≤ cbar w hs2 i j := by
    intro j hjy
    rw [hcb, if_pos rfl]
    have h2 := hdle j hjy
    rw [hcurb j] at h2
    linarith
  have htight2 : ∀ j r, hs2.pred j = some r → cbar w hs2 r j = 0 := by
    intro j r hjr
    rw [hpred2] at hjr
    have hrlt := (inv.predLT j r hjr).2
    rw [hcb, if_neg (by omega)]
    have := inv.tight j r hjr
    linarith
  have hvUnm2 : ∀ j, j < ny → hs2.pred j = none → hs2.v j = 0 := by
    intro j hjy hjn
    rw [hpred2] at hjn
    rw [hv2]
    exact inv.vUnm j hjy hjn
  have hvNonpos2 : ∀ j, j < ny → hs2.v j ≤ 0 := by
    intro j hjy
    rw [hv2]
    exact inv.vNonpos j hjy
  have hj1tight2 : cbar w hs2 i j1 = 0 := by
    rw [hcb, if_pos rfl, ← hcurb j1, ← hdelta]
    ring
  rw [initTree, ← hcur, hj1]
  dsimp only
  cases hj1p : hs.pred j1 with
  | none =>
    refine ⟨hs2, way2n, j1, rfl, [], ?_⟩
    exact {
      predLT := fun j r h => inv.predLT j r (hpred2 ▸ h)
      predInj := fun j j2 r h h2 => inv.predInj j j2 r (hpred2 ▸ h) (hpred2 ▸ h2)
      predOnto := fun r hr => by
        obtain ⟨j, hjy, hjp⟩ := inv.predOnto r hr
        exact ⟨j, hjy, hpred2 ▸ hjp⟩
      feas := hfeas2
      tight := htight2
      vUnm := hvUnm2
      vNonpos := hvNonpos2
      feasI := hfeasI2
      j1lt := hj1y
      j1unm := hpred2 ▸ hj1p
      j1notUsed := List.not_mem_nil j1
      j1tight := hj1tight2
      j1way := Or.inl rfl
      usedNd := List.nodup_nil
      usedOk := fun j hj => absurd hj (List.not_mem_nil j)
      usedTight := fun j hj => absurd hj (List.not_mem_nil j)
      usedWayOrder := fun k h => absurd h (by simp) }
  | some rm =>
    have hinv2 : TInv w ny i ⟨hs2, minv3, way2n, [j1], j1⟩ := by
      refine {
        predLT := fun j r h => inv.predLT j r (hpred2 ▸ h)
        predInj := fun j j2 r h h2 => inv.predInj j j2 r (hpred2 ▸ h) (hpred2 ▸ h2)
        predOnto := fun r hr => by
          obtain ⟨j, hjy, hjp⟩ := inv.predOnto r hr
          exact ⟨j, hjy, hpred2 ▸ hjp⟩
        feas := hfeas2
        tight := htight2
        vUnm := hvUnm2
        vNonpos := hvNonpos2
        feasI := hfeasI2
        usedNd := List.nodup_singleton j1
        usedOk := ?_
        j0mem := by simp
        scanLe := ?_
        wayEq := ?_
        wayMem := fun j hjy hju => Or.inl rfl
        minvPos := ?_
        usedTight := ?_
        usedWayOrder := ?_ }
      · intro j hj
        rw [List.mem_singleton] at hj
        subst hj
        refine ⟨hj1y, ?_⟩
        rw [hpred2, hj1p]
        rfl
      · -- scanLe
        intro j hjy hju
        dsimp only at hju ⊢
        constructor
        · rw [hm3 j hjy, hcb, if_pos rfl, ← hcurb j]
        · intro j2 hj2 hj2ne
          rw [List.mem_singleton] at hj2
          exact absurd hj2 hj2ne
      · -- wayEq
        intro j hjy hju
        dsimp only at hju ⊢
        rw [hm3 j hjy]
        show cur j - delta = cbar w hs2 i j
        rw [hcb, if_pos rfl, ← hcurb j]
      · -- minvPos
        intro j hjy hju
        dsimp only at hju ⊢
        rw [hm3 j hjy]
        have h2 := hdle j hjy
        linarith
      · -- usedTight
        intro j hj
        dsimp only at hj ⊢
        rw [List.mem_singleton] at hj
        subst hj
        show cbar w hs2 (frontierRow i hs2 (way2n j)) j = 0
        rw [hway2n, frontierRow]
        exact hj1tight2
      · -- usedWayOrder
        intro k hk
        dsimp only at hk ⊢
        exact Or.inl rfl
    have hrun := innerLoop_spec w ny i hiy ny ⟨hs2, minv3, way2n, [j1], j1⟩ hinv2
      (by
        show i + 1 ≤ ([j1] : List ℕ).length + ny
        rw [List.length_singleton]
        omega)
    obtain ⟨hs3, way3, j3, hrun2, used3, hE⟩ := hrun
    exact ⟨hs3, way3, j3, hrun2, used3, hE⟩

theorem einv_used_length {w : ℕ → ℕ → ℚ} {ny i : ℕ} {hs : HState}
    {way : ℕ → Option ℕ} {j1 : ℕ} {used : List ℕ}
    (E : EInv w ny i hs way j1 used) : used.length ≤ i := by
  classical
  set f : ℕ → ℕ := fun j => (hs.pred j).getD 0 with hf
  have hmapnd : (used.map f).Nodup := by
    rw [List.nodup_map_iff_inj_on E.usedNd]
    intro j hj j2 hj2 hfe
    obtain ⟨-, hs1⟩ := E.usedOk j hj
    obtain ⟨-, hs2⟩ := E.usedOk j2 hj2
    obtain ⟨r1, hr1⟩ := Option.isSome_iff_exists.mp hs1
    obtain ⟨r2, hr2⟩ := Option.isSome_iff_exists.mp hs2
    rw [hf] at hfe
    simp only [hr1, hr2, Option.getD_some] at hfe
    subst hfe
    exact E.predInj j j2 r1 hr1 hr2
  have hlt : ∀ x ∈ used.map f, x < i := by
    intro x hx
    obtain ⟨j, hj, rfl⟩ := List.mem_map.mp hx
    obtain ⟨-, hs1⟩ := E.usedOk j hj
    obtain ⟨r1, hr1⟩ := Option.isSome_iff_exists.mp hs1
    rw [hf]
    simp only [hr1, Option.getD_some]
    exact (E.predLT j r1 hr1).2
  have := nodup_bounded_length (used.map f) i hmapnd hlt
  simpa using this

theorem augmentLoop_spec (w : ℕ → ℕ → ℚ) (ny i : ℕ) (hs : HState)
    (way : ℕ → Option ℕ) (j1 : ℕ) (used : List ℕ)
    (E : EInv w ny i hs way j1 used) :
    ∀ (k : ℕ), ∀ (fuel : ℕ) (pred : ℕ → Option ℕ) (jcur : ℕ),
      k + 1 ≤ fuel →
      ((jcur = j1 ∧ k = used.length) ∨
        (∃ h : k < used.length, jcur = used.get ⟨k, h⟩)) →
      jcur < ny →
      (∀ j r, j ≠ jcur → pred j = some r → j < ny ∧ r < i) →
      (∀ j j2 r, j ≠ jcur → j2 ≠ jcur → pred j = some r → pred j2 = some r →
        j = j2) →
      (∀ r, r < i → ∃ j, j ≠ jcur ∧ j < ny ∧ pred j = some r) →
      (∀ j r, j ≠ jcur → pred j = some r → cbar w hs r j = 0) →
      (∀ j, j ≠ jcur → pred j = none → hs.pred j = none) →
      (∀ k2 (h2 : k2 < used.length), k2 < k →
        pred (used.get ⟨k2, h2⟩) = hs.pred (used.get ⟨k2, h2⟩)) →
      ∃ pred2, augmentLoop i way fuel pred jcur = some pred2 ∧
        (∀ j r, pred2 j = some r → j < ny ∧ r < i + 1) ∧
        (∀ j j2 r, pred2 j = some r → pred2 j2 = some r → j = j2) ∧
        (∀ r, r < i + 1 → ∃ j, j < ny ∧ pred2 j = some r) ∧
        (∀ j r, pred2 j = some r → cbar w hs r j = 0) ∧
        (∀ j, pred2 j = none → hs.pred j = none) := by
  classical
  intro k
  induction k using Nat.strong_induction_on with
  | _ k ih =>
    intro fuel pred jcur hfuel hlvl hcy hQ1 hQ2 hQ3 hQ4 hQ5 hQ7
    cases fuel with
    | zero => omega
    | succ f =>
      have htcur : cbar w hs (frontierRow i hs (way jcur)) jcur = 0 := by
        rcases hlvl with ⟨rfl, -⟩ | ⟨h, rfl⟩
        · exact E.j1tight
        · exact E.usedTight _ (List.get_mem _ _ _)
      cases hwc : way jcur with
      | none =>
        -- the root of the alternating tree: match `jcur` to row `i`
        have ht : cbar w hs i jcur = 0 := by
          rw [hwc] at htcur
          exact htcur
        refine ⟨Function.update pred jcur (some i), ?_, ?_, ?_, ?_, ?_, ?_⟩
        · rw [augmentLoop, hwc]
        · intro j r hjr
          by_cases hj : j = jcur
          · subst hj
            rw [Function.update_same] at hjr
            obtain rfl : i = r := Option.some_inj.mp hjr
            exact ⟨hcy, by omega⟩
          · rw [Function.update_noteq hj] at hjr
            have := hQ1 j r hj hjr
            omega
        · intro j j2 r hjr hj2r
          by_cases hj : j = jcur <;> by_cases hj2 : j2 = jcur
          · rw [hj, hj2]
          · subst hj
            rw [Function.update_same] at hjr
            obtain rfl : i = r := Option.some_inj.mp hjr
            rw [Function.update_noteq hj2] at hj2r
            have := (hQ1 j2 i hj2 hj2r).2
            omega
          · subst hj2
            rw [Function.update_same] at hj2r
            obtain rfl : i = r := Option.some_inj.mp hj2r
            rw [Function.update_noteq hj] at hjr
            have := (hQ1 j i hj hjr).2
            omega
          · rw [Function.update_noteq hj] at hjr
            rw [Function.update_noteq hj2] at hj2r
            exact hQ2 j j2 r hj hj2 hjr hj2r
        · intro r hr
          by_cases hri : r = i
          · subst hri
            exact ⟨jcur, hcy, by rw [Function.update_same]⟩
          · obtain ⟨j, hjne, hjy, hjr⟩ := hQ3 r (by omega)
            exact ⟨j, hjy, by rw [Function.update_noteq hjne]; exact hjr⟩
        · intro j r hjr
          by_cases hj : j = jcur
          · subst hj
            rw [Function.update_same] at hjr
            obtain rfl : i = r := Option.some_inj.mp hjr
            exact ht
          · rw [Function.update_noteq hj] at hjr
            exact hQ4 j r hj hjr
        · intro j hjn
          by_cases hj : j = jcur
          · subst hj
            rw [Function.update_same] at hjn
            exact Option.noConfusion hjn
          · rw [Function.update_noteq hj] at hjn
            exact hQ5 j hj hjn
      | some jp =>
        -- interior step: `jcur` takes the row matched to `jp`, recurse
        obtain ⟨k2, hk2len, hk2lt, hjp⟩ :
            ∃ k2, ∃ h2 : k2 < used.length, k2 < k ∧ jp = used.get ⟨k2, h2⟩ := by
          rcases hlvl with ⟨rfl, rfl⟩ | ⟨h, rfl⟩
          · rcases E.j1way with hn | ⟨jp2, hjp2, hsome⟩
            · rw [hwc] at hn
              cases hn
            · rw [hwc] at hsome
              obtain ⟨⟨k2, hk2⟩, hk2eq⟩ := List.mem_iff_get.mp hjp2
              exact ⟨k2, hk2, hk2, by rw [hk2eq]; exact Option.some_inj.mp hsome⟩
          · rcases E.usedWayOrder k h with hn | ⟨k2, h2, hlt2, hsome⟩
            · rw [hwc] at hn
              cases hn
            · rw [hwc] at hsome
              exact ⟨k2, h2, hlt2, Option.some_inj.mp hsome⟩
        have hjpmem : jp ∈ used := by
          rw [hjp]
          exact List.get_mem _ _ _
        have hjpne : jp ≠ jcur := by
          rcases hlvl with ⟨rfl, -⟩ | ⟨h, rfl⟩
          · intro hc
            exact E.j1notUsed (hc ▸ hjpmem)
          · intro hc
            rw [hjp] at hc
            have := List.nodup_iff_injective_get.mp E.usedNd hc
            rw [Fin.mk.injEq] at this
            omega
        obtain ⟨-, hjpsome⟩ := E.usedOk jp hjpmem
        obtain ⟨rp, hrp⟩ := Option.isSome_iff_exists.mp hjpsome
        have hjpy : jp < ny := (E.predLT jp rp hrp).1
        have hrplt : rp < i := (E.predLT jp rp hrp).2
        have hpredjp : pred jp = some rp := by
          rw [hjp]
          rw [hQ7 k2 hk2len hk2lt]
          rw [← hjp]
          exact hrp
        have hgd : (pred jp).getD i = rp := by
          rw [hpredjp]
          rfl
        have ht : cbar w hs rp jcur = 0 := by
          rw [hwc] at htcur
          have hfr : frontierRow i hs (some jp) = (hs.pred jp).getD i := rfl
          rw [hfr, hrp] at htcur
          exact htcur
        set pred' := Function.update pred jcur (some ((pred jp).getD i))
          with hpd
        have hpc : pred' jcur = some rp := by
          rw [hpd, Function.update_same, hgd]
        have hpne : ∀ j, j ≠ jcur → pred' j = pred j := by
          intro j hj
          rw [hpd, Function.update_noteq hj]
        have hrec := ih k2 hk2lt f pred' jp (by omega)
          (Or.inr ⟨hk2len, hjp⟩) hjpy ?_ ?_ ?_ ?_ ?_ ?_
        · obtain ⟨pred2, hrun, p1, p2, p3, p4, p5⟩ := hrec
          refine ⟨pred2, ?_, p1, p2, p3, p4, p5⟩
          rw [augmentLoop, hwc]
          exact hrun
        · -- Q1 for the recursive call
          intro j r hj hjr
          by_cases hjc : j = jcur
          · subst hjc
            rw [hpc] at hjr
            obtain rfl : rp = r := Option.some_inj.mp hjr
            exact ⟨hcy, hrplt⟩
          · rw [hpne j hjc] at hjr
            exact hQ1 j r hjc hjr
        · -- Q2
          intro j j2 r hj hj2 hjr hj2r
          by_cases hjc : j = jcur <;> by_cases hj2c : j2 = jcur
          · rw [hjc, hj2c]
          · subst hjc
            rw [hpc] at hjr
            obtain rfl : rp = r := Option.some_inj.mp hjr
            rw [hpne j2 hj2c] at hj2r
            exact absurd (hQ2 j2 jp rp hj2c hjpne hj2r hpredjp) hj2
          · subst hj2c
            rw [hpc] at hj2r
            obtain rfl : rp = r := Option.some_inj.mp hj2r
            rw [hpne j hjc] at hjr
            exact absurd (hQ2 j jp rp hjc hjpne hjr hpredjp) hj
          · rw [hpne j hjc] at hjr
            rw [hpne j2 hj2c] at hj2r
            exact hQ2 j j2 r hjc hj2c hjr hj2r
        · -- Q3
          intro r hr
          by_cases hrrp : r = rp
          · subst hrrp
            exact ⟨jcur, fun hc => hjpne hc.symm, hcy, hpc⟩
          · obtain ⟨j, hjne, hjy, hjr⟩ := hQ3 r hr
            have hjjp : j ≠ jp := by
              intro hc
              subst hc
              rw [hpredjp] at hjr
              cases hjr
              exact hrrp rfl
            by_cases hjc : j = jcur
            · subst hjc
              exact absurd rfl hjne
            · exact ⟨j, hjjp, hjy, by rw [hpne j hjc]; exact hjr⟩
        · -- Q4
          intro j r hj hjr
          by_cases hjc : j = jcur
          · subst hjc
            rw [hpc] at hjr
            obtain rfl : rp = r := Option.some_inj.mp hjr
            exact ht
          · rw [hpne j hjc] at hjr
            exact hQ4 j r hjc hjr
        · -- Q5
          intro j hj hjn
          by_cases hjc : j = jcur
          · subst hjc
            rw [hpc] at hjn
            exact Option.noConfusion hjn
          · rw [hpne j hjc] at hjn
            exact hQ5 j hjc hjn
        · -- Q7
          intro k3 h3 hk3
          have hne : used.get ⟨k3, h3⟩ ≠ jcur := by
            rcases hlvl with ⟨rfl, -⟩ | ⟨h, rfl⟩
            · intro hc
              exact E.j1notUsed (hc ▸ List.get_mem _ _ _)
            · intro hc
              have := List.nodup_iff_injective_get.mp E.usedNd hc
              rw [Fin.mk.injEq] at this
              omega
          rw [hpne _ hne]
          exact hQ7 k3 h3 (by omega)

theorem rowStep_spec (w : ℕ → ℕ → ℚ) (ny i : ℕ) (hiy : i < ny) (hs : HState)
    (inv : OInv w ny i hs) :
    ∃ hs3, rowStep w ny i hs = some hs3 ∧ OInv w ny (i + 1) hs3 := by
  obtain ⟨hs2, way, j1, hinit, used, E⟩ := initTree_spec w ny i hiy hs inv
  have hlen := einv_used_length E
  have hrun := augmentLoop_spec w ny i hs2 way j1 used E used.length (ny + 1)
    hs2.pred j1 (by omega) (Or.inl ⟨rfl, rfl⟩) E.j1lt
    (fun j r _ hjr => E.predLT j r hjr)
    (fun j j2 r _ _ hjr hj2r => E.predInj j j2 r hjr hj2r)
    (fun r hr => by
      obtain ⟨j, hjy, hjp⟩ := E.predOnto r hr
      refine ⟨j, ?_, hjy, hjp⟩
      intro hc
      subst hc
      rw [E.j1unm] at hjp
      cases hjp)
    (fun j r _ hjr => E.tight j r hjr)
    (fun j _ hjn => hjn)
    (fun k2 h2 _ => rfl)
  obtain ⟨pred2, haug, p1, p2, p3, p4, p5⟩ := hrun
  refine ⟨⟨hs2.u, hs2.v, pred2⟩, ?_, ?_⟩
  · rw [rowStep, hinit]
    simp only [Option.bind_eq_bind, Option.some_bind]
    rw [haug]
    rfl
  · exact {
      predLT := p1
      predInj := p2
      predOnto := fun r hr => p3 r hr
      feas := fun r hr j hjy => by
        have he : cbar w (⟨hs2.u, hs2.v, pred2⟩ : HState) r j = cbar w hs2 r j := rfl
        rw [he]
        rcases Nat.lt_succ_iff_lt_or_eq.mp hr with h | rfl
        · exact E.feas r h j hjy
        · exact E.feasI j hjy
      tight := fun j r hjr => by
        have he : ∀ r2, cbar w (⟨hs2.u, hs2.v, pred2⟩ : HState) r2 j =
            cbar w hs2 r2 j := fun _ => rfl
        rw [he]
        exact p4 j r hjr
      vUnm := fun j hjy hjn => E.vUnm j hjy (p5 j hjn)
      vNonpos := fun j hjy => E.vNonpos j hjy }

theorem runRows_spec (w : ℕ → ℕ → ℚ) (ny : ℕ) :
    ∀ (n i0 : ℕ) (hs : HState), i0 + n ≤ ny → OInv w ny i0 hs →
      ∃ hs3 totals, runRows w ny (List.range' i0 n) hs = some (hs3, totals) ∧
        OInv w ny (i0 + n) hs3 ∧ totals.length = n ∧
        (0 < n → totals.getLast? = some (matchTotal w ny hs3)) := by
  intro n
  induction n with
  | zero =>
    intro i0 hs hle inv
    exact ⟨hs, [], rfl, inv, rfl, fun h => absurd h (by omega)⟩
  | succ n ihn =>
    intro i0 hs hle inv
    have hi0y : i0 < ny := by omega
    obtain ⟨hs2, hstep, inv2⟩ := rowStep_spec w ny i0 hi0y hs inv
    obtain ⟨hs3, totals2, hrun, inv3, hlen2, hlast2⟩ :=
      ihn (i0 + 1) hs2 (by omega) inv2
    refine ⟨hs3, matchTotal w ny hs2 :: totals2, ?_, ?_, by simp [hlen2], ?_⟩
    · rw [List.range'_succ, runRows, hstep]
      simp only [Option.bind_eq_bind, Option.some_bind]
      rw [hrun]
      rfl
    · have he : i0 + (n + 1) = i0 + 1 + n := by omega
      rw [he]
      exact inv3
    · intro h
      cases totals2 with
      | nil =>
        have hn0 : n = 0 := by simpa using hlen2.symm
        subst hn0
        have he2 : hs2 = hs3 := by
          have : runRows w ny (List.range' (i0 + 1) 0) hs2 =
              some (hs2, []) := rfl
          rw [this] at hrun
          exact congrArg Prod.fst (Option.some_inj.mp hrun)
        rw [he2]
        rfl
      | cons b bs =>
        rw [List.getLast?_cons_cons]
        simp only [List.length_cons] at hlen2
        exact hlast2 (by omega)

theorem matchTotal_eq_sum_filter (w : ℕ → ℕ → ℚ) (ny : ℕ) (hs : HState) :
    matchTotal w ny hs =
      ∑ j ∈ (Finset.range ny).filter (fun j => (hs.pred j).isSome),
        w ((hs.pred j).getD 0) j := by
  classical
  rw [matchTotal,
    ← Finset.sum_filter_add_sum_filter_not (Finset.range ny)
      (fun j => (hs.pred j).isSome)
      (fun j => (hs.pred j).elim 0 (fun r => w r j))]
  have hz : ∑ j ∈ (Finset.range ny).filter (fun j => ¬ (hs.pred j).isSome),
      (hs.pred j).elim 0 (fun r => w r j) = 0 := by
    apply Finset.sum_eq_zero
    intro j hj
    rw [Finset.mem_filter] at hj
    cases hp : hs.pred j with
    | none => rfl
    | some r =>
      rw [hp] at hj
      simp at hj
  rw [hz, add_zero]
  apply Finset.sum_congr rfl
  intro j hj
  rw [Finset.mem_filter] at hj
  cases hp : hs.pred j with
  | none =>
    rw [hp] at hj
    simp at hj
  | some r =>
    rfl

theorem total_eq_dual (w : ℕ → ℕ → ℚ) (ny nx : ℕ) (hs : HState)
    (inv : OInv w ny nx hs) :
    matchTotal w ny hs =
      (∑ r ∈ Finset.range nx, -hs.u r) + (∑ j ∈ Finset.range ny, -hs.v j) := by
  classical
  rw [matchTotal_eq_sum_filter]
  have hterm : ∀ j ∈ (Finset.range ny).filter (fun j => (hs.pred j).isSome),
      w ((hs.pred j).getD 0) j = -hs.u ((hs.pred j).getD 0) + -hs.v j := by
    intro j hj
    rw [Finset.mem_filter] at hj
    obtain ⟨r, hr⟩ := Option.isSome_iff_exists.mp hj.2
    rw [hr, Option.getD_some]
    have := inv.tight j r hr
    rw [cbar] at this
    linarith
  rw [Finset.sum_congr rfl hterm, Finset.sum_add_distrib]
  congr 1
  · -- reindex the matched columns by their rows
    apply Finset.sum_bij (fun j _ => (hs.pred j).getD 0)
    · intro j hj
      rw [Finset.mem_filter] at hj
      obtain ⟨r, hr⟩ := Option.isSome_iff_exists.mp hj.2
      rw [hr, Option.getD_some]
      exact Finset.mem_range.mpr (inv.predLT j r hr).2
    · intro j hj j2 hj2 he
      rw [Finset.mem_filter] at hj hj2
      obtain ⟨r, hr⟩ := Option.isSome_iff_exists.mp hj.2
      obtain ⟨r2, hr2⟩ := Option.isSome_iff_exists.mp hj2.2
      rw [hr, hr2, Option.getD_some, Option.getD_some] at he
      subst he
      exact inv.predInj j j2 r hr hr2
    · intro r hr
      obtain ⟨j, hjy, hjp⟩ := inv.predOnto r (Finset.mem_range.mp hr)
      refine ⟨j, ?_, ?_⟩
      · rw [Finset.mem_filter]
        exact ⟨Finset.mem_range.mpr hjy, by rw [hjp]; rfl⟩
      · rw [hjp, Option.getD_some]
    · intro j hj
      rfl
  · -- unmatched columns have potential zero
    rw [← Finset.sum_filter_add_sum_filter_not (Finset.range ny)
      (fun j => (hs.pred j).isSome) (fun j => -hs.v j)]
    have hz : ∑ j ∈ (Finset.range ny).filter (fun j => ¬ (hs.pred j).isSome),
        -hs.v j = 0 := by
      apply Finset.sum_eq_zero
      intro j hj
      rw [Finset.mem_filter] at hj
      have hnone : hs.pred j = none := by
        cases hp : hs.pred j with
        | none => rfl
        | some r =>
          rw [hp] at hj
          simp at hj
      rw [inv.vUnm j (Finset.mem_range.mp hj.1) hnone]
      ring
    rw [hz, add_zero]

theorem full_le_dual (w : ℕ → ℕ → ℚ) (ny nx : ℕ) (hs : HState)
    (inv : OInv w ny nx hs) (M : Finset (ℕ × ℕ))
    (hM1 : ∀ p ∈ M, p.1 < nx ∧ p.2 < ny)
    (hrinj : ∀ p ∈ M, ∀ q ∈ M, p.1 = q.1 → p = q)
    (hcinj : ∀ p ∈ M, ∀ q ∈ M, p.2 = q.2 → p = q)
    (hfull : ∀ r, r < nx → ∃ j, (r, j) ∈ M) :
    mval w M ≤
      (∑ r ∈ Finset.range nx, -hs.u r) + (∑ j ∈ Finset.range ny, -hs.v j) := by
  classical
  have h1 : mval w M ≤ ∑ p ∈ M, (-hs.u p.1 + -hs.v p.2) := by
    rw [mval]
    apply Finset.sum_le_sum
    intro p hp
    have := inv.feas p.1 (hM1 p hp).1 p.2 (hM1 p hp).2
    rw [cbar] at this
    linarith
  rw [Finset.sum_add_distrib] at h1
  have h3 : ∑ p ∈ M, -hs.u p.1 = ∑ r ∈ Finset.range nx, -hs.u r := by
    apply Finset.sum_bij (fun p _ => p.1)
    · intro p hp
      exact Finset.mem_range.mpr (hM1 p hp).1
    · intro p hp q hq he
      exact hrinj p hp q hq he
    · intro r hr
      obtain ⟨j, hj⟩ := hfull r (Finset.mem_range.mp hr)
      exact ⟨(r, j), hj, rfl⟩
    · intro p hp
      rfl
  have h4 : ∑ p ∈ M, -hs.v p.2 ≤ ∑ j ∈ Finset.range ny, -hs.v j := by
    have h5 : ∑ p ∈ M, -hs.v p.2 = ∑ j ∈ M.image Prod.snd, -hs.v j := by
      rw [Finset.sum_image]
      intro p hp q hq he
      exact hcinj p hp q hq he
    rw [h5]
    apply Finset.sum_le_sum_of_subset_of_nonneg
    · intro j hj
      obtain ⟨p, hp, rfl⟩ := Finset.mem_image.mp hj
      exact Finset.mem_range.mpr (hM1 p hp).2
    · intro j hj _
      have := inv.vNonpos j (Finset.mem_range.mp hj)
      linarith
  linarith

theorem matching_extend (w : ℕ → ℕ → ℚ) (nx ny : ℕ) (hw : ∀ r j, 0 ≤ w r j)
    (hxy : nx ≤ ny) :
    ∀ (d : ℕ) (M : Finset (ℕ × ℕ)),
      (∀ p ∈ M, p.1 < nx ∧ p.2 < ny) →
      (∀ p ∈ M, ∀ q ∈ M, p.1 = q.1 → p = q) →
      (∀ p ∈ M, ∀ q ∈ M, p.2 = q.2 → p = q) →
      nx ≤ M.card + d →
      ∃ M2 : Finset (ℕ × ℕ),
        (∀ p ∈ M2, p.1 < nx ∧ p.2 < ny) ∧
        (∀ p ∈ M2, ∀ q ∈ M2, p.1 = q.1 → p = q) ∧
        (∀ p ∈ M2, ∀ q ∈ M2, p.2 = q.2 → p = q) ∧
        (∀ r, r < nx → ∃ j, (r, j) ∈ M2) ∧
        mval w M ≤ mval w M2 := by
  classical
  intro d
  induction d with
  | zero =>
    intro M hM1 hrinj hcinj hcard
    refine ⟨M, hM1, hrinj, hcinj, ?_, le_refl _⟩
    have hrowinj : Set.InjOn Prod.fst (M : Set (ℕ × ℕ)) := by
      intro p hp q hq he
      exact hrinj p hp q hq he
    have hcardrows : (M.image Prod.fst).card = M.card :=
      Finset.card_image_of_injOn hrowinj
    have hsub : M.image Prod.fst ⊆ Finset.range nx := by
      intro r hr
      obtain ⟨p, hp, rfl⟩ := Finset.mem_image.mp hr
      exact Finset.mem_range.mpr (hM1 p hp).1
    have heq : M.image Prod.fst = Finset.range nx := by
      apply Finset.eq_of_subset_of_card_le hsub
      rw [hcardrows, Finset.card_range]
      omega
    intro r hr
    have : r ∈ M.image Prod.fst := by
      rw [heq]
      exact Finset.mem_range.mpr hr
    obtain ⟨p, hp, hpr⟩ := Finset.mem_image.mp this
    exact ⟨p.2, by rw [← hpr]; exact hp⟩
  | succ d ih =>
    intro M hM1 hrinj hcinj hcard
    by_cases hcov : ∀ r, r < nx → ∃ j, (r, j) ∈ M
    · exact ⟨M, hM1, hrinj, hcinj, hcov, le_refl _⟩
    · push_neg at hcov
      obtain ⟨r, hr, hrnone⟩ := hcov
      have hcolinj : Set.InjOn Prod.snd (M : Set (ℕ × ℕ)) := by
        intro p hp q hq he
        exact hcinj p hp q hq he
      have hcardcols : (M.image Prod.snd).card = M.card :=
        Finset.card_image_of_injOn hcolinj
      have hrowinj : Set.InjOn Prod.fst (M : Set (ℕ × ℕ)) := by
        intro p hp q hq he
        exact hrinj p hp q hq he
      have hcardrows : (M.image Prod.fst).card = M.card :=
        Finset.card_image_of_injOn hrowinj
      have hsubr : M.image Prod.fst ⊆ (Finset.range nx).erase r := by
        intro r2 hr2
        obtain ⟨p, hp, rfl⟩ := Finset.mem_image.mp hr2
        rw [Finset.mem_erase]
        refine ⟨?_, Finset.mem_range.mpr (hM1 p hp).1⟩
        intro hc
        exact hrnone p.2 (by rw [← hc]; exact hp)
      have hcardM : M.card < ny := by
        have := Finset.card_le_card hsubr
        rw [hcardrows, Finset.card_erase_of_mem (Finset.mem_range.mpr hr),
          Finset.card_range] at this
        omega
      have hsubc : M.image Prod.snd ⊆ Finset.range ny := by
        intro j hj
        obtain ⟨p, hp, rfl⟩ := Finset.mem_image.mp hj
        exact Finset.mem_range.mpr (hM1 p hp).2
      have hfree : (Finset.range ny \ M.image Prod.snd).Nonempty := by
        rw [← Finset.card_pos, Finset.card_sdiff hsubc, hcardcols,
          Finset.card_range]
        omega
      obtain ⟨j, hj⟩ := hfree
      rw [Finset.mem_sdiff] at hj
      have hjy : j < ny := Finset.mem_range.mp hj.1
      have hjfree : ∀ p ∈ M, p.2 ≠ j := by
        intro p hp hc
        exact hj.2 (Finset.mem_image.mpr ⟨p, hp, hc⟩)
      have hnotmem : (r, j) ∉ M := fun hc => hjfree (r, j) hc rfl
      have hrec := ih (insert (r, j) M) ?_ ?_ ?_ ?_
      · obtain ⟨M2, q1, q2, q3, q4, q5⟩ := hrec
        refine ⟨M2, q1, q2, q3, q4, le_trans ?_ q5⟩
        rw [mval, mval, Finset.sum_insert hnotmem]
        have := hw r j
        linarith
      · intro p hp
        rcases Finset.mem_insert.mp hp with rfl | hp
        · exact ⟨hr, hjy⟩
        · exact hM1 p hp
      · intro p hp q hq he
        rcases Finset.mem_insert.mp hp with rfl | hp <;>
          rcases Finset.mem_insert.mp hq with rfl | hq
        · rfl
        · have he2 : (r, q.2) = q := Prod.ext he rfl
          have hin : (r, q.2) ∈ M := by rw [he2]; exact hq
          exact absurd hin (hrnone q.2)
        · have he2 : (r, p.2) = p := Prod.ext he.symm rfl
          have hin : (r, p.2) ∈ M := by rw [he2]; exact hp
          exact absurd hin (hrnone p.2)
        · exact hrinj p hp q hq he
      · intro p hp q hq he
        rcases Finset.mem_insert.mp hp with rfl | hp <;>
          rcases Finset.mem_insert.mp hq with rfl | hq
        · rfl
        · exact absurd he.symm (hjfree q hq)
        · exact absurd he (hjfree p hp)
        · exact hcinj p hp q hq he
      · rw [Finset.card_insert_of_not_mem hnotmem]
        omega

theorem hInit_OInv (w : ℕ → ℕ → ℚ) (ny : ℕ) : OInv w ny 0 hInit := by
  refine {
    predLT := fun j r h => Option.noConfusion h
    predInj := fun j j2 r h h2 => Option.noConfusion h
    predOnto := fun r hr => absurd hr (by omega)
    feas := fun r hr => absurd hr (by omega)
    tight := fun j r h => Option.noConfusion h
    vUnm := fun j hjy hjn => rfl
    vNonpos := fun j hjy => le_refl 0 }

theorem hungarian_runRows (w : ℕ → ℕ → ℚ) (nx ny : ℕ) (h1 : 1 ≤ nx)
    (hxy : nx ≤ ny) (hw : ∀ r j, 0 ≤ w r j) :
    ∃ hsF totals, runRows w ny (List.range' 0 nx) hInit = some (hsF, totals) ∧
      totals.length = nx ∧
      totals.getLast? = some (bmF w 0 nx (List.range ny)) := by
  classical
  obtain ⟨hsF, totals, hrun, invF, hlen, hlast⟩ :=
    runRows_spec w ny nx 0 hInit (by omega) (hInit_OInv w ny)
  rw [Nat.zero_add] at invF
  refine ⟨hsF, totals, hrun, hlen, ?_⟩
  rw [hlast (by omega)]
  congr 1
  -- the final matching total equals the brute-force maximum
  set M : Finset (ℕ × ℕ) := ((Finset.range ny).filter
    (fun j => (hsF.pred j).isSome)).image
      (fun j => ((hsF.pred j).getD 0, j)) with hMdef
  have hmem : ∀ p ∈ M, p.2 < ny ∧ hsF.pred p.2 = some p.1 := by
    intro p hp
    rw [hMdef] at hp
    obtain ⟨j, hj, rfl⟩ := Finset.mem_image.mp hp
    rw [Finset.mem_filter] at hj
    obtain ⟨r, hr⟩ := Option.isSome_iff_exists.mp hj.2
    refine ⟨Finset.mem_range.mp hj.1, ?_⟩
    rw [hr, Option.getD_some]
  have hM1 : ∀ p ∈ M, p.1 < nx ∧ p.2 < ny := by
    intro p hp
    obtain ⟨hpy, hpr⟩ := hmem p hp
    exact ⟨(invF.predLT p.2 p.1 hpr).2, hpy⟩
  have hrinj : ∀ p ∈ M, ∀ q ∈ M, p.1 = q.1 → p = q := by
    intro p hp q hq he
    obtain ⟨hpy, hpr⟩ := hmem p hp
    obtain ⟨hqy, hqr⟩ := hmem q hq
    rw [he] at hpr
    have := invF.predInj p.2 q.2 q.1 hpr hqr
    exact Prod.ext he this
  have hcinj : ∀ p ∈ M, ∀ q ∈ M, p.2 = q.2 → p = q := by
    intro p hp q hq he
    obtain ⟨hpy, hpr⟩ := hmem p hp
    obtain ⟨hqy, hqr⟩ := hmem q hq
    rw [he] at hpr
    rw [hpr] at hqr
    exact Prod.ext (Option.some_inj.mp hqr) he
  have hMval : mval w M = matchTotal w ny hsF := by
    rw [mval, hMdef, Finset.sum_image, matchTotal_eq_sum_filter]
    intro j hj j2 hj2 he
    exact congrArg Prod.snd he
  apply le_antisymm
  · -- matchTotal ≤ brute force
    rw [← hMval]
    apply bmF_ge w nx 0 (List.range ny) M
    · intro p hp
      exact ⟨Nat.zero_le _, by have := (hM1 p hp).1; omega⟩
    · intro p hp
      exact List.mem_range.mpr (hM1 p hp).2
    · exact hrinj
    · exact hcinj
  · -- brute force ≤ matchTotal, by LP duality over a full matching
    obtain ⟨Ms, m1, m2, m3, m4, m5⟩ :=
      bmF_achieved w nx 0 (List.range ny) (List.nodup_range ny)
    rw [← m5]
    obtain ⟨M2, q1, q2, q3, q4, q5⟩ := matching_extend w nx ny hw hxy nx Ms
      (fun p hp => ⟨by have := (m1 p hp).2; omega,
        List.mem_range.mp (m2 p hp)⟩)
      m3 m4 (by omega)
    calc mval w Ms ≤ mval w M2 := q5
      _ ≤ _ := by
        rw [total_eq_dual w ny nx hsF invF]
        exact full_le_dual w ny nx hsF invF M2 q1 q2 q3 q4

theorem iterativeTotals_spec (cost : ℕ → ℕ → ℚ) (nx ny : ℕ)
    (h1x : 1 ≤ nx) (h1y : 1 ≤ ny) (hw : ∀ i j, 0 ≤ cost i j) :
    ∃ totals, iterativeTotals cost nx ny = some totals ∧
      totals.getLast? = some (bmF cost 0 nx (List.range ny)) := by
  rw [iterativeTotals]
  by_cases hgt : nx > ny
  · rw [if_pos hgt]
    obtain ⟨hsF, totals, hrun, hlen, hlast⟩ :=
      hungarian_runRows (fun i j => cost j i) ny nx h1y (by omega)
        (fun r j => hw j r)
    rw [← List.range_eq_range'] at hrun
    refine ⟨totals, ?_, ?_⟩
    · rw [hrun]
      rfl
    · rw [hlast, bmF_swap cost nx ny]
  · rw [if_neg hgt]
    obtain ⟨hsF, totals, hrun, hlen, hlast⟩ :=
      hungarian_runRows cost nx ny h1x (by omega) hw
    rw [← List.range_eq_range'] at hrun
    exact ⟨totals, by rw [hrun]; rfl, hlast⟩

/-- C2: for every non-negative cost matrix with at most 5 rows and 5 columns
(and at least one of each), the total of the last pair yielded by
`iterative_max_matching` equals the brute-force maximum one-to-one assignment
total, which is also the total returned by the one-shot `ONE_TO_ONE` solver of
`AssignmentProblem.solve`. -/
theorem c2_theorem (m : List (List ℚ)) (nx ny : ℕ)
    (hnx : m.length = nx) (hny : (m.headD []).length = ny)
    (hrows : ∀ row ∈ m, row.length = ny)
    (hw : ∀ row ∈ m, ∀ x ∈ row, 0 ≤ x)
    (h1x : 1 ≤ nx) (h1y : 1 ≤ ny) (h5x : nx ≤ 5) (h5y : ny ≤ 5) :
    ∃ totals, iterativeTotals (matEntry m) nx ny = some totals ∧
      totals.getLast? = some (bruteForceMax m ny) ∧
      (assignmentSolve MatchingConstraint.oneToOne m).1 = bruteForceMax m ny := by
  have hw' : ∀ i j, 0 ≤ matEntry m i j := by
    intro i j
    rw [matEntry]
    by_cases hi : i < m.length
    · rw [List.getD_eq_getElem m [] hi]
      by_cases hj : j < (m[i]).length
      · rw [List.getD_eq_getElem _ 0 hj]
        exact hw m[i] (List.getElem_mem _) (m[i])[j] (List.getElem_mem _)
      · rw [List.getD_eq_default _ 0 (by omega)]
    · rw [List.getD_eq_default m [] (by omega)]
      simp [List.getD]
  obtain ⟨totals, hrun, hlast⟩ := iterativeTotals_spec (matEntry m) nx ny h1x h1y hw'
  refine ⟨totals, hrun, ?_, ?_⟩
  · rw [hlast, bruteForceMax, bruteMaxAux_eq_bmF, hnx]
  · have h2 : (assignmentSolve MatchingConstraint.oneToOne m).1 =
        bruteForceMax m (m.headD []).length := rfl
    rw [h2, hny]

theorem c2_witness :
    ∃ totals, iterativeTotals (matEntry [[1, 2], [3, 4]]) 2 2 = some totals ∧
      totals.getLast? = some (bruteForceMax [[1, 2], [3, 4]] 2) ∧
      (assignmentSolve MatchingConstraint.oneToOne [[1, 2], [3, 4]]).1 =
        bruteForceMax [[1, 2], [3, 4]] 2 :=
  c2_theorem [[1, 2], [3, 4]] 2 2 rfl rfl (by norm_num) (by norm_num)
    (by norm_num) (by norm_num) (by norm_num) (by norm_num)

end Metametric
